import Mathlib

/-!
Shallow embedding of `ticket_generator_module.py` and the ticket-generation
part of `app.py` from the repository `tevalovalo-housie90-backend`, together
with proofs about the embedded functions.

Conventions of the embedding:
* a Python `Optional[int]` cell is `Option ℕ`; Python truthiness (`if x:`),
  under which both `None` and `0` are falsy, is the function `truthy`;
* Python lists are Lean `List`s; indexing `xs[i]` on paths that are guarded
  by shape checks is `List.getD`;
* the global `random` source is made explicit: every call of
  `random.shuffle` / randomized `sorted` tie-breaking / `random.choice`
  is replaced by an oracle argument, constrained by a well-formedness
  hypothesis saying exactly what the real source guarantees (a shuffle
  returns a permutation of its input, etc.);
* a Python function that can raise is modelled with `Except String`,
  the error string being the exception message.
-/

namespace Housie

/-- A cell of a ticket: Python `Optional[int]`. -/
abbrev Cell := Option ℕ

/-- One row of a ticket (9 cells). -/
abbrev Row := List Cell

/-- A ticket: 3 rows of 9 cells. -/
abbrev Ticket := List Row

/-- A strip: 6 tickets. -/
abbrev Strip := List Ticket

/-- `COL_RANGES` from ticket_generator_module.py: inclusive value range of each
of the 9 columns. -/
def COL_RANGES : List (ℕ × ℕ) :=
  [(1, 9), (10, 19), (20, 29), (30, 39), (40, 49), (50, 59), (60, 69), (70, 79), (80, 90)]

/-- `STRIP_COL_TOTALS` from ticket_generator_module.py: how many numbers each
column holds across the whole 6-ticket strip. -/
def STRIP_COL_TOTALS : List ℕ := [9, 10, 10, 10, 10, 10, 10, 10, 11]

/-- Python truthiness of a cell (`if x:`): `None` and `0` are falsy,
every other integer is truthy. -/
def truthy : Cell → Bool
  | none => false
  | some n => n != 0

/-- `_in_col_range` from ticket_generator_module.py. -/
def _in_col_range (c n : ℕ) : Bool :=
  let lo := (COL_RANGES.getD c (0, 0)).1
  let hi := (COL_RANGES.getD c (0, 0)).2
  decide (lo ≤ n) && decide (n ≤ hi)

/-- `ticket[r][c]` (used only behind the 3×9 shape checks, so the default
values are never reached on validated paths). -/
def getCell (t : Ticket) (r c : ℕ) : Cell :=
  (t.getD r []).getD c none

/-- `col_vals = [ticket[r][c] for r in range(3) if ticket[r][c]]`:
the truthy values of column `c` of a ticket, in row order. -/
def colVals (t : Ticket) (c : ℕ) : List ℕ :=
  (List.range 3).filterMap fun r =>
    (getCell t r c).bind fun n => if n = 0 then none else some n

/-- `sum(1 for x in row if x)`: how many truthy cells a row holds. -/
def rowNumCount (row : Row) : ℕ :=
  (row.filter truthy).length

/-- The `for n in col_vals: if n in seen … seen.add(n)` loop of
`validate_strip`; the accumulated `seen` is kept as a list in insertion
order (the Python `set` only needs membership). -/
def addSeen (seen : List ℕ) : List ℕ → Except String (List ℕ)
  | [] => .ok seen
  | n :: ns =>
    if n ∈ seen then .error ("duplicate number " ++ toString n ++ " in strip")
    else addSeen (seen ++ [n]) ns

/-- The `for c in range(9)` loop body of `validate_strip` for one ticket:
count bounds, column ranges, ascending order, strip column totals,
global uniqueness.  `ct` is `col_totals`.  The Python test
`col_vals != sorted(col_vals)` is modelled with `List.insertionSort`. -/
def checkCols (tIdx : ℕ) (t : Ticket) : List ℕ → List ℕ → List ℕ →
    Except String (List ℕ × List ℕ)
  | [], seen, ct => .ok (seen, ct)
  | c :: cs, seen, ct =>
    let vals := colVals t c
    let k := vals.length
    if k < 1 || 3 < k then
      .error ("ticket " ++ toString tIdx ++ ": column " ++ toString c ++ " has "
        ++ toString k ++ " numbers (must be 1..3)")
    else if !(vals.all fun n => _in_col_range c n) then
      .error ("ticket " ++ toString tIdx ++ ": column " ++ toString c
        ++ " has value out of range")
    else if vals ≠ vals.insertionSort (· ≤ ·) then
      .error ("ticket " ++ toString tIdx ++ ": column " ++ toString c ++ " not ascending")
    else
      match addSeen seen vals with
      | .error e => .error e
      | .ok seen' => checkCols tIdx t cs seen' (ct.set c (ct.getD c 0 + k))

/-- First row index (in 0..2) whose row is not 9 cells long, if any:
the `for r in range(3)` shape check of `validate_strip`. -/
def badRowIdx (t : Ticket) : Option ℕ :=
  (List.range 3).find? fun r => (t.getD r []).length != 9

/-- The per-ticket part of `validate_strip`. -/
def checkTicket (tIdx : ℕ) (t : Ticket) (seen ct : List ℕ) :
    Except String (List ℕ × List ℕ) :=
  if t.length ≠ 3 then .error ("ticket " ++ toString tIdx ++ ": not 3 rows")
  else
    match badRowIdx t with
    | some r => .error ("ticket " ++ toString tIdx ++ ": row " ++ toString r ++ " not 9 cols")
    | none =>
      if !(t.all fun row => rowNumCount row == 5) then
        .error ("ticket " ++ toString tIdx ++ ": each row must have 5 numbers")
      else checkCols tIdx t (List.range 9) seen ct

/-- The `for t_idx, ticket in enumerate(strip)` loop of `validate_strip`. -/
def vloop : List Ticket → ℕ → List ℕ → List ℕ → Except String (List ℕ × List ℕ)
  | [], _, seen, ct => .ok (seen, ct)
  | t :: ts, tIdx, seen, ct =>
    match checkTicket tIdx t seen ct with
    | .error e => .error e
    | .ok (seen', ct') => vloop ts (tIdx + 1) seen' ct'

/-- `seen == set(range(1, 91))` as the two inclusions (the Python comparison
is between sets; `seen` has no duplicates when this test is reached). -/
def seenEq1to90 (seen : List ℕ) : Bool :=
  ((List.range' 1 90).all fun n => seen.contains n) &&
    (seen.all fun n => decide (1 ≤ n) && decide (n ≤ 90))

/-- The `strip numbers mismatch` message of `validate_strip`. -/
def mismatchMsg (seen : List ℕ) : String :=
  let missing := (List.range' 1 90).filter fun n => !(seen.contains n)
  let extra := (seen.insertionSort (· ≤ ·)).filter fun n => decide (n < 1) || decide (90 < n)
  "strip numbers mismatch (missing=" ++ toString (missing.take 5) ++ "..., extra="
    ++ toString (extra.take 5) ++ "...)"

/-- `validate_strip` from ticket_generator_module.py.  Python returns a pair
`(bool, str)`; the `isinstance(…, list)` halves of the shape checks are
guaranteed by the Lean types, the length halves are kept. -/
def validate_strip (strip : Strip) : Bool × String :=
  if strip.length ≠ 6 then (false, "strip must contain 6 tickets")
  else
    match vloop strip 0 [] (List.replicate 9 0) with
    | .error e => (false, e)
    | .ok (seen, ct) =>
      if !seenEq1to90 seen then (false, mismatchMsg seen)
      else if ct ≠ STRIP_COL_TOTALS then
        (false, "strip column totals " ++ toString ct ++ " != " ++ toString STRIP_COL_TOTALS)
      else (true, "ok")

end Housie

namespace Housie

/-- The recursive enumerator inside `compositions_of_total`: all lists of
`k` integers in `[1,3]` summing to `rem`, with the source's feasibility
pruning, in the source's (pre-shuffle) generation order. -/
def compRec : ℕ → ℕ → List (List ℕ)
  | 0, rem => if rem = 0 then [[]] else []
  | k + 1, rem =>
    [1, 2, 3].flatMap fun x =>
      if x ≤ rem ∧ k ≤ rem - x ∧ rem - x ≤ 3 * k then
        (compRec k (rem - x)).map (x :: ·)
      else []

/-- `compositions_of_total(total, k)` from ticket_generator_module.py,
before its `random.shuffle(result)` (the shuffle is externalized to the
randomness oracle). -/
def compositions_of_total (total k : ℕ) : List (List ℕ) :=
  compRec k total

/-- First `some` value of `f` along a list: the functional form of a
Python `for` loop that `return`s on its first success. -/
def firstSome : List α → (α → Option β) → Option β
  | [], _ => none
  | a :: as, f =>
    match f a with
    | some b => some b
    | none => firstSome as f

/-- The per-candidate capacity/feasibility test of `backtrack_col` in
`_alloc_strip_col_counts` (`new_used > 15`, and the min/max bound on the
remaining columns, or exactness when no columns remain). -/
def allocFeasible (used vec : List ℕ) (remaining : ℕ) : Bool :=
  (List.zip used vec).all fun p =>
    let newUsed := p.1 + p.2
    decide (newUsed ≤ 15) &&
      (if remaining = 0 then newUsed == 15
       else decide (remaining * 1 ≤ 15 - newUsed) && decide (15 - newUsed ≤ remaining * 3))

/-- `backtrack_col` of `_alloc_strip_col_counts`: one candidate list per
remaining column, the running per-ticket totals, and on success the list of
committed column vectors. -/
def allocSolve : List (List (List ℕ)) → List ℕ → Option (List (List ℕ))
  | [], used => if used.all (· == 15) then some [] else none
  | cands :: rest, used =>
    firstSome cands fun vec =>
      if allocFeasible used vec rest.length then
        match allocSolve rest (List.zipWith (· + ·) used vec) with
        | some cols => some (vec :: cols)
        | none => none
      else none

/-- Reassemble the ticket-major `A[6][9]` matrix from the 9 committed
column vectors (the Python code writes `A[t][c]` in place). -/
def colsToMatrix (cols : List (List ℕ)) : List (List ℕ) :=
  (List.range 6).map fun t => cols.map fun col => col.getD t 0

/-- `_alloc_strip_col_counts` from ticket_generator_module.py.  The three
shuffled composition lists (for the totals 9, 10 and 11 of
`possible_for_total`) are the explicit randomness; columns 1..7 share the
total-10 list exactly as the Python dict is shared. -/
def _alloc_strip_col_counts (cand9 cand10 cand11 : List (List ℕ)) :
    Except String (List (List ℕ)) :=
  let colCands := [cand9] ++ List.replicate 7 cand10 ++ [cand11]
  match allocSolve colCands (List.replicate 6 0) with
  | some cols => .ok (colsToMatrix cols)
  | none => .error "Failed to allocate strip column counts"

/-- `itertools.combinations` on a list: all `k`-element sublists in
lexicographic order of positions. -/
def combos : ℕ → List α → List (List α)
  | 0, _ => [[]]
  | _ + 1, [] => []
  | k + 1, x :: xs => ((combos k xs).map (x :: ·)) ++ combos (k + 1) xs

/-- `rows_left[r] -= 1` at one row index. -/
def decAt (rl : List ℕ) (r : ℕ) : List ℕ :=
  rl.set r (rl.getD r 0 - 1)

/-- `backtrack` of `_mask_for_ticket`: for each column the chosen row
combination; `rowsLeft` is `rows_left`.  The Python `rows_left[r] < 0`
prune can never fire (only rows with `rows_left > 0` enter `valid_rows`
and a combination is duplicate-free), so the natural-number model keeps
only the `rows_left[r] > remaining_cols` prune. -/
def maskSolve : List ℕ → List ℕ → Option (List (List ℕ))
  | [], rowsLeft => if rowsLeft == [0, 0, 0] then some [] else none
  | k :: rest, rowsLeft =>
    let validRows := (List.range 3).filter fun r => 0 < rowsLeft.getD r 0
    if validRows.length < k then none
    else
      firstSome (combos k validRows) fun comb =>
        let rl' := comb.foldl decAt rowsLeft
        if rl'.all fun x => decide (x ≤ rest.length) then
          match maskSolve rest rl' with
          | some cs => some (comb :: cs)
          | none => none
        else none

/-- The row-major `mask[3][9]` built from the per-column row choices
(`mask[r][c] = 1` iff row `r` was chosen for column `c`). -/
def maskOfCombs (combs : List (List ℕ)) : List (List ℕ) :=
  (List.range 3).map fun r => combs.map fun comb => if r ∈ comb then 1 else 0

/-- `_mask_for_ticket` from ticket_generator_module.py. -/
def _mask_for_ticket (colSums : List ℕ) : Except String (List (List ℕ)) :=
  if colSums.length ≠ 9 then .error "col_sums must have length 9"
  else if colSums.sum ≠ 15 then .error "sum(col_sums) must be 15 for a ticket"
  else
    match maskSolve colSums [5, 5, 5] with
    | some combs => .ok (maskOfCombs combs)
    | none => .error "Failed to build row mask for ticket"

/-- Python `sorted` on a list of naturals. -/
def pySorted (l : List ℕ) : List ℕ :=
  l.insertionSort (· ≤ ·)

/-- `rows = [r for r in range(3) if mask[r][c] == 1]`. -/
def rowsAt (mask : List (List ℕ)) (c : ℕ) : List ℕ :=
  (List.range 3).filter fun r => (mask.getD r []).getD c 0 == 1

/-- The value placed at `(r, c)` of one ticket by the fill loop of
`generate_full_strip`: the sorted slice `take` of column `c`'s pool is
zipped against the mask's rows; a row not in the zip gets `None`.  (Each
cell is written at most once, so the imperative fill is this function.) -/
def cellVal (pools : List (List ℕ)) (consumed colSums : List ℕ)
    (mask : List (List ℕ)) (r c : ℕ) : Cell :=
  let need := colSums.getD c 0
  let slice := pySorted (((pools.getD c []).drop (consumed.getD c 0)).take need)
  match (rowsAt mask c).findIdx? (· == r) with
  | some i => slice.get? i
  | none => none

/-- One ticket of the fill loop (step 3 of `generate_full_strip`). -/
def fillTicket (pools : List (List ℕ)) (consumed colSums : List ℕ)
    (mask : List (List ℕ)) : Ticket :=
  (List.range 3).map fun r => (List.range 9).map fun c =>
    cellVal pools consumed colSums mask r c

/-- The `for t in range(6)` loop of `generate_full_strip`: one row of the
allocation per ticket; `consumed` advances by the ticket's column sums.
An exception from `_mask_for_ticket` aborts the whole attempt. -/
def buildTickets (pools : List (List ℕ)) :
    List (List ℕ) → List ℕ → Except String (List Ticket)
  | [], _ => .ok []
  | colSums :: restAlloc, consumed =>
    match _mask_for_ticket colSums with
    | .error e => .error e
    | .ok mask =>
      let t := fillTicket pools consumed colSums mask
      match buildTickets pools restAlloc (List.zipWith (· + ·) consumed colSums) with
      | .error e => .error e
      | .ok ts => .ok (t :: ts)

/-- `_ticket_block_counts` from ticket_generator_module.py. -/
def _ticket_block_counts (t : Ticket) : ℕ × ℕ × ℕ :=
  let count := fun (cs : List ℕ) =>
    ((List.range 3).map fun r => (cs.filter fun c => truthy (getCell t r c)).length).sum
  (count [0, 1, 2], count [3, 4, 5], count [6, 7, 8])

/-- `_is_balanced_ticket` from ticket_generator_module.py. -/
def _is_balanced_ticket (t : Ticket) : Bool :=
  let bc := _ticket_block_counts t
  let mx := max bc.1 (max bc.2.1 bc.2.2)
  let mn := min bc.1 (min bc.2.1 bc.2.2)
  decide (mx - mn ≤ 2)

/-- The explicit randomness consumed by one attempt of
`generate_full_strip`: the three shuffled composition lists used by
`_alloc_strip_col_counts` and the nine shuffled column ranges from which
the pools are sliced. -/
structure AttemptRand where
  cand9 : List (List ℕ)
  cand10 : List (List ℕ)
  cand11 : List (List ℕ)
  shuffledRanges : List (List ℕ)

/-- `list(range(lo, hi + 1))` for column `c`. -/
def rangeList (c : ℕ) : List ℕ :=
  let lo := (COL_RANGES.getD c (0, 0)).1
  let hi := (COL_RANGES.getD c (0, 0)).2
  List.range' lo (hi + 1 - lo)

/-- Step 2 of `generate_full_strip`: `pools[c]` is the shuffled column
range truncated to the strip quota. -/
def poolsOf (ar : AttemptRand) : List (List ℕ) :=
  (List.range 9).map fun c => (ar.shuffledRanges.getD c []).take (STRIP_COL_TOTALS.getD c 0)

/-- What the real `random` source guarantees of one attempt's randomness:
each shuffled list is a permutation of what the source shuffles. -/
def WFAttempt (ar : AttemptRand) : Prop :=
  ar.cand9.Perm (compositions_of_total 9 6) ∧
  ar.cand10.Perm (compositions_of_total 10 6) ∧
  ar.cand11.Perm (compositions_of_total 11 6) ∧
  ar.shuffledRanges.length = 9 ∧
  ∀ c < 9, (ar.shuffledRanges.getD c []).Perm (rangeList c)

/-- A whole run's randomness: one `AttemptRand` per attempt index. -/
def WFRand (rand : ℕ → AttemptRand) : Prop :=
  ∀ i, WFAttempt (rand i)

/-- The `for _ in range(max_attempts)` loop of `generate_full_strip`,
with `fuel` attempts left, carrying `last_valid_strip` and `last_msg`.
An allocation failure is raised outside the `try` and so propagates; a
mask failure is caught (`last_valid_strip = None`); a built strip is
remembered (validated or not — the code stores it before testing `ok`),
and returned at once when valid and balanced. -/
def genLoop (rand : ℕ → AttemptRand) (maxAttempts : ℕ) :
    ℕ → Option Strip → String → Except String Strip
  | 0, last, lastMsg =>
    match last with
    | some s => .ok s
    | none => .error ("Failed to generate balanced strip after " ++ toString maxAttempts
        ++ " attempts: " ++ lastMsg)
  | fuel + 1, _, _ =>
    let ar := rand (maxAttempts - (fuel + 1))
    match _alloc_strip_col_counts ar.cand9 ar.cand10 ar.cand11 with
    | .error e => .error e
    | .ok alloc =>
      match buildTickets (poolsOf ar) alloc (List.replicate 9 0) with
      | .error e => genLoop rand maxAttempts fuel none e
      | .ok strip =>
        let v := validate_strip strip
        if v.1 && strip.all _is_balanced_ticket then .ok strip
        else genLoop rand maxAttempts fuel (some strip) v.2

/-- `generate_full_strip` from ticket_generator_module.py, the randomness
source made explicit. -/
def generate_full_strip (rand : ℕ → AttemptRand) (maxAttempts : ℕ) : Except String Strip :=
  genLoop rand maxAttempts maxAttempts none "no_attempt"

end Housie

namespace Housie

/-! ### Lemmas about `compositions_of_total` -/

lemma length_le_sum {l : List ℕ} (h : ∀ x ∈ l, 1 ≤ x) : l.length ≤ l.sum := by
  induction l with
  | nil => simp
  | cons a t ih =>
    have ha := h a (by simp)
    have := ih fun x hx => h x (by simp [hx])
    simp only [List.length_cons, List.sum_cons]
    omega

lemma sum_le_three_mul_length {l : List ℕ} (h : ∀ x ∈ l, x ≤ 3) : l.sum ≤ 3 * l.length := by
  induction l with
  | nil => simp
  | cons a t ih =>
    have ha := h a (by simp)
    have := ih fun x hx => h x (by simp [hx])
    simp only [List.length_cons, List.sum_cons]
    omega

/-- Membership in the composition enumerator is exactly the contract of
`compositions_of_total`: `k` entries, each in `[1,3]`, summing to `rem`
(the feasibility pruning drops nothing). -/
lemma mem_compRec : ∀ (k rem : ℕ) (v : List ℕ),
    v ∈ compRec k rem ↔ v.length = k ∧ (∀ x ∈ v, 1 ≤ x ∧ x ≤ 3) ∧ v.sum = rem := by
  intro k
  induction k with
  | zero =>
    intro rem v
    unfold compRec
    split
    · rename_i h0
      subst h0
      simp only [List.mem_singleton]
      constructor
      · rintro rfl; simp
      · rintro ⟨hl, _, hs⟩
        exact List.length_eq_zero.mp hl
    · rename_i h0
      simp only [List.not_mem_nil, false_iff]
      rintro ⟨hl, _, hs⟩
      have := List.length_eq_zero.mp hl
      subst this
      simp at hs
      omega
  | succ k ih =>
    intro rem v
    unfold compRec
    simp only [List.mem_flatMap]
    constructor
    · rintro ⟨x, hx, hv⟩
      rw [List.mem_cons, List.mem_cons, List.mem_singleton] at hx
      split at hv
      · rename_i hguard
        obtain ⟨t, ht, rfl⟩ := List.mem_map.mp hv
        obtain ⟨hlen, hbnd, hsum⟩ := (ih _ t).mp ht
        refine ⟨by simp [hlen], ?_, ?_⟩
        · intro y hy
          rcases List.mem_cons.mp hy with rfl | hy
          · rcases hx with rfl | rfl | rfl <;> omega
          · exact hbnd y hy
        · simp only [List.sum_cons, hsum]
          omega
      · simp at hv
    · rintro ⟨hlen, hbnd, hsum⟩
      match v with
      | [] => simp at hlen
      | x :: t =>
        have hx := hbnd x (by simp)
        have htb : ∀ y ∈ t, 1 ≤ y ∧ y ≤ 3 := fun y hy => hbnd y (by simp [hy])
        have htlen : t.length = k := by simpa using hlen
        have htlow : t.length ≤ t.sum := length_le_sum fun y hy => (htb y hy).1
        have hthigh : t.sum ≤ 3 * t.length := sum_le_three_mul_length fun y hy => (htb y hy).2
        have hsum' : x + t.sum = rem := by simpa using hsum
        refine ⟨x, ?_, ?_⟩
        · have : x = 1 ∨ x = 2 ∨ x = 3 := by omega
          rcases this with rfl | rfl | rfl <;> simp
        · have hguard : x ≤ rem ∧ k ≤ rem - x ∧ rem - x ≤ 3 * k := by omega
          rw [if_pos hguard]
          refine List.mem_map.mpr ⟨t, ?_, rfl⟩
          refine (ih _ t).mpr ⟨htlen, htb, by omega⟩

lemma mem_compositions (total : ℕ) (v : List ℕ) :
    v ∈ compositions_of_total total 6 ↔
      v.length = 6 ∧ (∀ x ∈ v, 1 ≤ x ∧ x ≤ 3) ∧ v.sum = total :=
  mem_compRec 6 total v

/-! ### Lemmas about `combos` and `firstSome` -/

/-- `combos k l` enumerates exactly the `k`-element sublists of `l`. -/
lemma mem_combos {α : Type} : ∀ (l : List α) (k : ℕ) (v : List α),
    v ∈ combos k l ↔ v.Sublist l ∧ v.length = k := by
  intro l
  induction l with
  | nil =>
    intro k v
    match k with
    | 0 =>
      simp only [combos, List.mem_singleton]
      constructor
      · rintro rfl; simp
      · rintro ⟨hs, hl⟩
        exact List.eq_nil_of_sublist_nil hs
    | k + 1 =>
      simp only [combos, List.not_mem_nil, false_iff]
      rintro ⟨hs, hl⟩
      have := List.eq_nil_of_sublist_nil hs
      subst this
      simp at hl
  | cons x xs ih =>
    intro k v
    match k with
    | 0 =>
      simp only [combos, List.mem_singleton]
      constructor
      · rintro rfl; simp
      · rintro ⟨hs, hl⟩
        exact List.length_eq_zero.mp hl
    | k + 1 =>
      simp only [combos, List.mem_append, List.mem_map]
      constructor
      · rintro (⟨t, ht, rfl⟩ | hv)
        · obtain ⟨hs, hl⟩ := (ih k t).mp ht
          exact ⟨List.cons_sublist_cons.mpr hs, by simp [hl]⟩
        · obtain ⟨hs, hl⟩ := (ih (k + 1) v).mp hv
          exact ⟨hs.cons x, hl⟩
      · rintro ⟨hs, hl⟩
        rcases List.sublist_cons_iff.mp hs with hv | ⟨r, rfl, hr⟩
        · exact Or.inr ((ih (k + 1) v).mpr ⟨hv, hl⟩)
        · exact Or.inl ⟨r, (ih k r).mpr ⟨hr, by simpa using hl⟩, rfl⟩

lemma firstSome_eq_some {α β : Type} {l : List α} {f : α → Option β} {b : β}
    (h : firstSome l f = some b) : ∃ a ∈ l, f a = some b := by
  induction l with
  | nil => simp [firstSome] at h
  | cons a as ih =>
    rw [firstSome] at h
    cases hfa : f a with
    | some b' =>
      rw [hfa] at h
      exact ⟨a, by simp, by simpa [hfa] using h⟩
    | none =>
      rw [hfa] at h
      obtain ⟨a', ha', hfa'⟩ := ih h
      exact ⟨a', by simp [ha'], hfa'⟩

lemma firstSome_isSome {α β : Type} {l : List α} {f : α → Option β} {a : α}
    (ha : a ∈ l) (hf : (f a).isSome) : (firstSome l f).isSome := by
  induction l with
  | nil => simp at ha
  | cons x xs ih =>
    rw [firstSome]
    cases hfx : f x with
    | some b => simp
    | none =>
      rcases List.mem_cons.mp ha with rfl | ha'
      · rw [hfx] at hf; simp at hf
      · exact ih ha'

end Housie

namespace Housie

/-! ### Lemmas about `maskSolve` / `_mask_for_ticket` -/

/-- In how many of the committed column combinations row `r` occurs
(= the number of cells of row `r` the mask marks). -/
def rowUses (combs : List (List ℕ)) (r : ℕ) : ℕ :=
  (combs.filter fun cb => decide (r ∈ cb)).length

lemma rowUses_nil (r : ℕ) : rowUses [] r = 0 := rfl

lemma rowUses_cons (cb : List ℕ) (combs : List (List ℕ)) (r : ℕ) :
    rowUses (cb :: combs) r = (if r ∈ cb then 1 else 0) + rowUses combs r := by
  by_cases h : r ∈ cb <;> simp [rowUses, h, Nat.add_comm]

lemma rowUses_le_length (combs : List (List ℕ)) (r : ℕ) :
    rowUses combs r ≤ combs.length :=
  List.length_filter_le _ _

/-- The eight sublists of `[0, 1, 2]`. -/
lemma sublist_012 {cb : List ℕ} (h : cb.Sublist [0, 1, 2]) :
    cb = [] ∨ cb = [0] ∨ cb = [1] ∨ cb = [0, 1] ∨ cb = [2] ∨
    cb = [0, 2] ∨ cb = [1, 2] ∨ cb = [0, 1, 2] := by
  have : cb ∈ ([0, 1, 2] : List ℕ).sublists := List.mem_sublists.mpr h
  simpa [List.sublists] using this

lemma sublist_of_subset_of_sublist {α : Type} [DecidableEq α] :
    ∀ {l l1 l2 : List α}, l.Nodup → l1.Sublist l → l2.Sublist l →
      (∀ x ∈ l1, x ∈ l2) → l1.Sublist l2 := by
  intro l
  induction l with
  | nil =>
    intro l1 l2 _ h1 _ _
    have := List.eq_nil_of_sublist_nil h1
    subst this
    simp
  | cons a t ih =>
    intro l1 l2 hnd h1 h2 hsub
    have hat : a ∉ t := (List.nodup_cons.mp hnd).1
    have hndt : t.Nodup := (List.nodup_cons.mp hnd).2
    rcases List.sublist_cons_iff.mp h1 with h1' | ⟨r1, rfl, hr1⟩
    · rcases List.sublist_cons_iff.mp h2 with h2' | ⟨r2, rfl, hr2⟩
      · exact ih hndt h1' h2' hsub
      · have hsub' : ∀ x ∈ l1, x ∈ r2 := by
          intro x hx
          rcases List.mem_cons.mp (hsub x hx) with rfl | hxr
          · exact absurd (h1'.subset hx) hat
          · exact hxr
        exact (ih hndt h1' hr2 hsub').cons a
    · rcases List.sublist_cons_iff.mp h2 with h2' | ⟨r2, rfl, hr2⟩
      · have : a ∈ t := h2'.subset (hsub a (by simp))
        exact absurd this hat
      · have hsub' : ∀ x ∈ r1, x ∈ r2 := by
          intro x hx
          rcases List.mem_cons.mp (hsub x (by simp [hx])) with rfl | hxr
          · exact absurd (hr1.subset hx) hat
          · exact hxr
        exact (ih hndt hr1 hr2 hsub').cons₂ a

/-- `l.filter (· ∈ cb) = cb` for a sublist `cb` of a duplicate-free `l`. -/
lemma filter_mem_of_sublist {α : Type} [DecidableEq α] :
    ∀ {l cb : List α}, l.Nodup → cb.Sublist l → l.filter (fun x => decide (x ∈ cb)) = cb := by
  intro l
  induction l with
  | nil =>
    intro cb _ h
    have := List.eq_nil_of_sublist_nil h
    subst this
    rfl
  | cons a t ih =>
    intro cb hnd hs
    have hat : a ∉ t := (List.nodup_cons.mp hnd).1
    have hndt : t.Nodup := (List.nodup_cons.mp hnd).2
    rcases List.sublist_cons_iff.mp hs with hs' | ⟨r, rfl, hr⟩
    · have ha : a ∉ cb := fun h => hat (hs'.subset h)
      simp only [List.filter_cons, decide_eq_true_eq, if_neg ha]
      · exact ih hndt hs'
    · have ha : a ∈ a :: r := by simp
      rw [List.filter_cons, if_pos (by simp)]
      congr 1
      have : ∀ x ∈ t, (decide (x ∈ a :: r)) = (decide (x ∈ r)) := by
        intro x hx
        have hxa : x ≠ a := fun h => hat (h ▸ hx)
        simp [List.mem_cons, hxa]
      rw [List.filter_congr this]
      exact ih hndt hr

lemma length_foldl_decAt (cb : List ℕ) (rl : List ℕ) :
    (cb.foldl decAt rl).length = rl.length := by
  induction cb generalizing rl with
  | nil => rfl
  | cons a t ih => simp [List.foldl_cons, ih, decAt]

end Housie

namespace Housie

lemma range_three : List.range 3 = [0, 1, 2] := by decide

lemma foldl_decAt_getD {cb : List ℕ} (hcb : cb.Sublist [0, 1, 2]) (rl : List ℕ)
    (hlen : rl.length = 3) (r : ℕ) (hr : r < 3) :
    (cb.foldl decAt rl).getD r 0 = rl.getD r 0 - (if r ∈ cb then 1 else 0) := by
  obtain ⟨a, b, c, rfl⟩ : ∃ a b c, rl = [a, b, c] := by
    match rl, hlen with
    | [a, b, c], _ => exact ⟨a, b, c, rfl⟩
  rcases sublist_012 hcb with rfl | rfl | rfl | rfl | rfl | rfl | rfl | rfl <;>
    interval_cases r <;>
    simp [decAt, List.getD]

lemma validRows_sublist (rl : List ℕ) :
    ((List.range 3).filter fun r => 0 < rl.getD r 0).Sublist [0, 1, 2] :=
  range_three ▸ List.filter_sublist _

/-- Soundness of the mask backtracker: a returned choice list has one
combination per column of the right size, and consumes the row budget
exactly. -/
lemma maskSolve_sound : ∀ (ks rl : List ℕ) (combs : List (List ℕ)), rl.length = 3 →
    maskSolve ks rl = some combs →
    List.Forall₂ (fun cb k => cb.Sublist [0, 1, 2] ∧ cb.length = k) combs ks ∧
    ∀ r < 3, rl.getD r 0 = rowUses combs r := by
  intro ks
  induction ks with
  | nil =>
    intro rl combs hlen h
    rw [maskSolve] at h
    split at h
    · rename_i hbeq
      have hrl : rl = [0, 0, 0] := by simpa using hbeq
      subst hrl
      obtain rfl : combs = [] := by simpa using h.symm
      refine ⟨List.Forall₂.nil, ?_⟩
      intro r hr
      interval_cases r <;> simp [rowUses_nil, List.getD]
    · exact absurd h (by simp)
  | cons k rest ih =>
    intro rl combs hlen h
    rw [maskSolve] at h
    split at h
    · exact absurd h (by simp)
    · rename_i hk
      obtain ⟨comb, hmem, hcomb⟩ := firstSome_eq_some h
      obtain ⟨hsubv, hlenc⟩ := (mem_combos _ _ _).mp hmem
      have hsub012 : comb.Sublist [0, 1, 2] := hsubv.trans (validRows_sublist rl)
      simp only at hcomb
      split at hcomb
      · rename_i hall
        cases hms : maskSolve rest (comb.foldl decAt rl) with
        | none => rw [hms] at hcomb; exact absurd hcomb (by simp)
        | some cs =>
          rw [hms] at hcomb
          obtain rfl : comb :: cs = combs := by simpa using hcomb
          have hlen' : (comb.foldl decAt rl).length = 3 := by
            rw [length_foldl_decAt]; exact hlen
          obtain ⟨hf₂, huses⟩ := ih _ cs hlen' hms
          refine ⟨List.Forall₂.cons ⟨hsub012, hlenc⟩ hf₂, ?_⟩
          intro r hr
          have hpos : r ∈ comb → 0 < rl.getD r 0 := by
            intro hrc
            have := hsubv.subset hrc
            simp only [List.mem_filter, decide_eq_true_eq] at this
            exact this.2
          have hfold := foldl_decAt_getD hsub012 rl hlen r hr
          have := huses r hr
          rw [rowUses_cons]
          by_cases hrc : r ∈ comb
          · have := hpos hrc
            simp only [if_pos hrc] at hfold ⊢
            omega
          · simp only [if_neg hrc] at hfold ⊢
            omega
      · exact absurd hcomb (by simp)

/-- A solution certificate for the mask backtracker from state
`(ks, rl)`: one row combination per column, of the required sizes,
using row `r` exactly `rl r` times. -/
def IsMaskSol (ks rl : List ℕ) (combs : List (List ℕ)) : Prop :=
  List.Forall₂ (fun cb k => cb.Sublist [0, 1, 2] ∧ cb.length = k) combs ks ∧
  ∀ r < 3, rowUses combs r = rl.getD r 0

/-- Completeness of the mask backtracker: if any solution exists it
returns one (whatever the candidate order tried first). -/
lemma maskSolve_complete : ∀ (ks rl : List ℕ) (combs : List (List ℕ)), rl.length = 3 →
    IsMaskSol ks rl combs → (maskSolve ks rl).isSome := by
  intro ks
  induction ks with
  | nil =>
    intro rl combs hlen hsol
    obtain ⟨hf₂, huses⟩ := hsol
    have hc : combs = [] := by
      cases hf₂
      · rfl
    subst hc
    obtain ⟨a, b, c, rfl⟩ : ∃ a b c, rl = [a, b, c] := by
      match rl, hlen with
      | [a, b, c], _ => exact ⟨a, b, c, rfl⟩
    have h0 := huses 0 (by omega)
    have h1 := huses 1 (by omega)
    have h2 := huses 2 (by omega)
    simp [rowUses_nil, List.getD] at h0 h1 h2
    rw [maskSolve]
    rw [if_pos (by simp [← h0, ← h1, ← h2])]
    simp
  | cons k rest ih =>
    intro rl combs hlen hsol
    obtain ⟨hf₂, huses⟩ := hsol
    obtain ⟨comb, cs, rfl, hhead, htail⟩ :
        ∃ cb cs, combs = cb :: cs ∧ (cb.Sublist [0, 1, 2] ∧ cb.length = k) ∧
          List.Forall₂ (fun cb k => cb.Sublist [0, 1, 2] ∧ cb.length = k) cs rest := by
      cases hf₂ with
      | cons h₁ h₂ => exact ⟨_, _, rfl, h₁, h₂⟩
    obtain ⟨hsub012, hlenc⟩ := hhead
    have hpos : ∀ r ∈ comb, 0 < rl.getD r 0 := by
      intro r hr
      have hr3 : r < 3 := by
        have := hsub012.subset hr
        simp only [List.mem_cons, List.mem_singleton] at this
        rcases this with rfl | rfl | rfl | h
        · omega
        · omega
        · omega
        · simp at h
      have := huses r hr3
      rw [rowUses_cons, if_pos hr] at this
      omega
    have hsubv : comb.Sublist ((List.range 3).filter fun r => 0 < rl.getD r 0) := by
      refine sublist_of_subset_of_sublist (l := [0, 1, 2]) (by decide) hsub012
        (validRows_sublist rl) ?_
      intro r hr
      refine List.mem_filter.mpr ⟨?_, by simpa using hpos r hr⟩
      rw [range_three]
      exact hsub012.subset hr
    rw [maskSolve]
    rw [if_neg (by
      push_neg
      calc k = comb.length := hlenc.symm
        _ ≤ _ := hsubv.length_le)]
    refine firstSome_isSome ((mem_combos _ _ _).mpr ⟨hsubv, hlenc⟩) ?_
    simp only
    have hfoldlen : (comb.foldl decAt rl).length = 3 := by
      rw [length_foldl_decAt]; exact hlen
    have hfold : ∀ r < 3, (comb.foldl decAt rl).getD r 0 = rowUses cs r := by
      intro r hr
      rw [foldl_decAt_getD hsub012 rl hlen r hr]
      have := huses r hr
      rw [rowUses_cons] at this
      by_cases hrc : r ∈ comb
      · have := hpos r hrc
        simp only [if_pos hrc] at *
        omega
      · simp only [if_neg hrc] at *
        omega
    rw [if_pos (by
      refine List.all_eq_true.mpr ?_
      intro x hx
      obtain ⟨r, hr, rfl⟩ := List.mem_iff_getElem.mp hx
      have hr3 : r < 3 := hfoldlen ▸ hr
      have : (comb.foldl decAt rl).getD r 0 = (comb.foldl decAt rl)[r] := by
        simp [List.getD_eq_getElem?_getD, List.getElem?_eq_getElem hr]
      rw [← this, hfold r hr3]
      have h1 : rowUses cs r ≤ cs.length := rowUses_le_length cs r
      have h2 : cs.length = rest.length := htail.length_eq
      simp only [decide_eq_true_eq]
      omega)]
    have := ih (comb.foldl decAt rl) cs hfoldlen ⟨htail, fun r hr => (hfold r hr).symm⟩
    cases hms : maskSolve rest (comb.foldl decAt rl) with
    | none => rw [hms] at this; simp at this
    | some cs' => simp

end Housie

namespace Housie

/-! ### Totality of `_mask_for_ticket` on its contract domain

A greedy most-capacity-first builder produces, for every admissible
column-sum vector, a certificate solution; `maskSolve_complete` then says
the source's backtracker cannot miss it.  The certificate check over the
whole (finite) contract domain is done once by `decide`. -/

/-- The three rows ordered by remaining capacity, largest first. -/
def sortRowsDesc (rl : List ℕ) : List ℕ :=
  let a := rl.getD 0 0
  let b := rl.getD 1 0
  let c := rl.getD 2 0
  if b ≤ a then
    (if c ≤ b then [0, 1, 2] else if c ≤ a then [0, 2, 1] else [2, 0, 1])
  else
    (if c ≤ a then [1, 0, 2] else if c ≤ b then [1, 2, 0] else [2, 1, 0])

/-- The `k` rows of largest remaining capacity, in ascending row order. -/
def pickRows (rl : List ℕ) (k : ℕ) : List ℕ :=
  [0, 1, 2].filter fun r => r ∈ (sortRowsDesc rl).take k

/-- Greedy candidate solution for the mask problem. -/
def greedyCombs : List ℕ → List ℕ → List (List ℕ)
  | [], _ => []
  | k :: rest, rl =>
    let comb := pickRows rl k
    comb :: greedyCombs rest (comb.foldl decAt rl)

/-- Executable certificate check: the greedy solution has one combination
per column, of the right sizes, and uses every row exactly 5 times. -/
def certOK (cs : List ℕ) : Bool :=
  let combs := greedyCombs cs [5, 5, 5]
  (combs.length == cs.length &&
    (List.zip combs cs).all fun p => p.1.length == p.2) &&
  ([0, 1, 2].all fun r => rowUses combs r == 5)

lemma all_take_drop {α : Type} (p : α → Bool) (l : List α) (n : ℕ)
    (h1 : (l.take n).all p = true) (h2 : (l.drop n).all p = true) : l.all p = true := by
  rw [← List.take_append_drop n l, List.all_append, h1, h2]
  rfl

set_option maxRecDepth 1000000 in
set_option maxHeartbeats 16000000 in
lemma mask_cert_c1 : ((compRec 9 15).take 400).all certOK = true := by
  -- HEAVYEVAL
  decide

set_option maxRecDepth 1000000 in
set_option maxHeartbeats 16000000 in
lemma mask_cert_c2 : (((compRec 9 15).drop 400).take 400).all certOK = true := by
  -- HEAVYEVAL
  decide

set_option maxRecDepth 1000000 in
set_option maxHeartbeats 16000000 in
lemma mask_cert_c3 : ((((compRec 9 15).drop 400).drop 400).take 400).all certOK = true := by
  -- HEAVYEVAL
  decide

set_option maxRecDepth 1000000 in
set_option maxHeartbeats 16000000 in
lemma mask_cert_c4 : ((((compRec 9 15).drop 400).drop 400).drop 400).all certOK = true := by
  -- HEAVYEVAL
  decide

lemma mask_cert_all : (compRec 9 15).all certOK = true :=
  all_take_drop _ _ 400 mask_cert_c1
    (all_take_drop _ _ 400 mask_cert_c2
      (all_take_drop _ _ 400 mask_cert_c3 mask_cert_c4))

lemma greedyCombs_sublist : ∀ (cs rl : List ℕ), ∀ cb ∈ greedyCombs cs rl,
    cb.Sublist [0, 1, 2] := by
  intro cs
  induction cs with
  | nil => intro rl cb h; simp [greedyCombs] at h
  | cons k rest ih =>
    intro rl cb h
    rw [greedyCombs] at h
    rcases List.mem_cons.mp h with rfl | h'
    · exact List.filter_sublist _
    · exact ih _ cb h'

lemma cert_to_sol {cs : List ℕ} (h : certOK cs = true) :
    IsMaskSol cs [5, 5, 5] (greedyCombs cs [5, 5, 5]) := by
  simp only [certOK, Bool.and_eq_true, List.all_eq_true, beq_iff_eq] at h
  obtain ⟨⟨hlen, hzip⟩, huses⟩ := h
  constructor
  · rw [List.forall₂_iff_zip]
    refine ⟨hlen, ?_⟩
    intro cb k hmem
    refine ⟨greedyCombs_sublist cs [5, 5, 5] cb (List.of_mem_zip hmem).1, ?_⟩
    exact hzip (cb, k) hmem
  · intro r hr
    have : r ∈ ([0, 1, 2] : List ℕ) := by
      interval_cases r <;> simp
    have := huses r this
    interval_cases r <;> simpa [List.getD] using this

/-- On its contract domain (9 column counts in `[1,3]` summing to 15) the
mask backtracker always succeeds. -/
lemma maskSolve_total {cs : List ℕ} (h9 : cs.length = 9)
    (hb : ∀ x ∈ cs, 1 ≤ x ∧ x ≤ 3) (h15 : cs.sum = 15) :
    ∃ combs, maskSolve cs [5, 5, 5] = some combs := by
  have hmem : cs ∈ compRec 9 15 := (mem_compRec 9 15 cs).mpr ⟨h9, hb, h15⟩
  have hcert : certOK cs = true := List.all_eq_true.mp mask_cert_all cs hmem
  have := maskSolve_complete cs [5, 5, 5] _ rfl (cert_to_sol hcert)
  exact Option.isSome_iff_exists.mp this

/-- Combined specification of `_mask_for_ticket` on its contract domain:
it succeeds, and the solution it returns consumes the row budget `[5,5,5]`
with one combination of the required size per column. -/
lemma mask_for_ticket_spec {cs : List ℕ} (h9 : cs.length = 9)
    (hb : ∀ x ∈ cs, 1 ≤ x ∧ x ≤ 3) (h15 : cs.sum = 15) :
    ∃ combs, maskSolve cs [5, 5, 5] = some combs ∧
      _mask_for_ticket cs = .ok (maskOfCombs combs) ∧
      List.Forall₂ (fun cb k => cb.Sublist [0, 1, 2] ∧ cb.length = k) combs cs ∧
      ∀ r < 3, rowUses combs r = 5 := by
  obtain ⟨combs, hcombs⟩ := maskSolve_total h9 hb h15
  obtain ⟨hf₂, huses⟩ := maskSolve_sound cs [5, 5, 5] combs rfl hcombs
  refine ⟨combs, hcombs, ?_, hf₂, ?_⟩
  · rw [_mask_for_ticket, if_neg (by omega), if_neg (by omega), hcombs]
  · intro r hr
    have h := huses r hr
    interval_cases r <;> (simp [List.getD] at h; omega)

end Housie

namespace Housie

/-! ### Lemmas about `_alloc_strip_col_counts` -/

/-- Per-ticket total over a list of committed column vectors. -/
def sumAt (cols : List (List ℕ)) (t : ℕ) : ℕ :=
  (cols.map fun col => col.getD t 0).sum

/-- What every vector of a column's candidate list satisfies (candidate
lists come from `compositions_of_total tot 6`, possibly reshuffled). -/
def CandProp (cl : List (List ℕ)) (tot : ℕ) : Prop :=
  ∀ v ∈ cl, v.length = 6 ∧ (∀ x ∈ v, 1 ≤ x ∧ x ≤ 3) ∧ v.sum = tot

lemma sumAt_nil (t : ℕ) : sumAt [] t = 0 := rfl

lemma sumAt_cons (v : List ℕ) (cols : List (List ℕ)) (t : ℕ) :
    sumAt (v :: cols) t = v.getD t 0 + sumAt cols t := by
  simp [sumAt]

lemma sumAt_bounds {cols : List (List ℕ)} {t : ℕ}
    (h : ∀ v ∈ cols, 1 ≤ v.getD t 0 ∧ v.getD t 0 ≤ 3) :
    cols.length ≤ sumAt cols t ∧ sumAt cols t ≤ 3 * cols.length := by
  induction cols with
  | nil => simp [sumAt_nil]
  | cons v vs ih =>
    have hv := h v (by simp)
    have := ih fun w hw => h w (by simp [hw])
    rw [sumAt_cons]
    simp only [List.length_cons]
    omega

lemma getD_zipWith_add {u v : List ℕ} {t : ℕ} (ht : t < u.length) (ht' : t < v.length) :
    (List.zipWith (· + ·) u v).getD t 0 = u.getD t 0 + v.getD t 0 := by
  have hlen : t < (List.zipWith (· + ·) u v).length := by
    rw [List.length_zipWith]; omega
  rw [List.getD_eq_getElem?_getD, List.getElem?_eq_getElem hlen,
    List.getD_eq_getElem?_getD, List.getElem?_eq_getElem ht,
    List.getD_eq_getElem?_getD, List.getElem?_eq_getElem ht']
  simp [List.getElem_zipWith]

/-- Soundness of the allocation backtracker: whatever candidate order the
shuffles produced, a returned assignment consists of candidate vectors
and fills every ticket to exactly 15. -/
lemma allocSolve_sound :
    ∀ (cands : List (List (List ℕ))) (tots : List ℕ) (used : List ℕ)
      (cols : List (List ℕ)),
      used.length = 6 → List.Forall₂ CandProp cands tots →
      allocSolve cands used = some cols →
      List.Forall₂ (fun v tot => v.length = 6 ∧ (∀ x ∈ v, 1 ≤ x ∧ x ≤ 3) ∧ v.sum = tot)
        cols tots ∧
      ∀ t < 6, used.getD t 0 + sumAt cols t = 15 := by
  intro cands
  induction cands with
  | nil =>
    intro tots used cols hlen hf₂ h
    have htots : tots = [] := by cases hf₂; rfl
    subst htots
    rw [allocSolve] at h
    split at h
    · rename_i hall
      obtain rfl : cols = [] := by simpa using h.symm
      refine ⟨List.Forall₂.nil, ?_⟩
      intro t ht
      have ht' : t < used.length := by omega
      have : used.getD t 0 = used[t] := by
        simp [List.getD_eq_getElem?_getD, List.getElem?_eq_getElem ht']
      rw [this, sumAt_nil]
      have := List.all_eq_true.mp hall used[t] (List.getElem_mem ht')
      simpa using this
    · exact absurd h (by simp)
  | cons cl rest ih =>
    intro tots used cols hlen hf₂ h
    obtain ⟨tot, tots', rfl, hhead, htail⟩ :
        ∃ tot tots', tots = tot :: tots' ∧ CandProp cl tot ∧ List.Forall₂ CandProp rest tots' := by
      cases hf₂ with
      | cons h₁ h₂ => exact ⟨_, _, rfl, h₁, h₂⟩
    rw [allocSolve] at h
    obtain ⟨vec, hvmem, hvec⟩ := firstSome_eq_some h
    split at hvec
    · rename_i hfeas
      cases hrec : allocSolve rest (List.zipWith (· + ·) used vec) with
      | none => rw [hrec] at hvec; exact absurd hvec (by simp)
      | some cols' =>
        rw [hrec] at hvec
        obtain rfl : vec :: cols' = cols := by simpa using hvec
        obtain ⟨hvlen, hvbnd, hvsum⟩ := hhead vec hvmem
        have hulen' : (List.zipWith (· + ·) used vec).length = 6 := by
          rw [List.length_zipWith]; omega
        obtain ⟨hf₂', hsum'⟩ := ih tots' _ cols' hulen' htail hrec
        refine ⟨List.Forall₂.cons ⟨hvlen, hvbnd, hvsum⟩ hf₂', ?_⟩
        intro t ht
        have := hsum' t ht
        rw [getD_zipWith_add (by omega) (by omega)] at this
        rw [sumAt_cons]
        omega
    · exact absurd hvec (by simp)

lemma forall₂_mem_left {α β : Type} {R : α → β → Prop} :
    ∀ {l₁ : List α} {l₂ : List β}, List.Forall₂ R l₁ l₂ → ∀ a ∈ l₁, ∃ b ∈ l₂, R a b := by
  intro l₁
  induction l₁ with
  | nil => intro l₂ _ a ha; simp at ha
  | cons x xs ih =>
    intro l₂ h a ha
    cases h with
    | cons h₁ h₂ =>
      rcases List.mem_cons.mp ha with rfl | ha'
      · exact ⟨_, by simp, h₁⟩
      · obtain ⟨b, hb, hrab⟩ := ih h₂ a ha'
        exact ⟨b, by simp [hb], hrab⟩

lemma allocFeasible_true {used v : List ℕ} {L : ℕ}
    (h : ∀ u x, (u, x) ∈ List.zip used v →
      u + x ≤ 15 ∧ (L = 0 → u + x = 15) ∧
      (L ≠ 0 → L ≤ 15 - (u + x) ∧ 15 - (u + x) ≤ L * 3)) :
    allocFeasible used v L = true := by
  rw [allocFeasible]
  refine List.all_eq_true.mpr ?_
  intro p hp
  obtain ⟨u, x⟩ := p
  obtain ⟨h1, h2, h3⟩ := h u x hp
  dsimp only
  by_cases h0 : L = 0
  · subst h0
    rw [if_pos rfl]
    simp only [Bool.and_eq_true, decide_eq_true_eq, beq_iff_eq]
    exact ⟨h1, h2 rfl⟩
  · rw [if_neg h0]
    simp only [Bool.and_eq_true, decide_eq_true_eq]
    obtain ⟨h3a, h3b⟩ := h3 h0
    exact ⟨h1, by omega, by omega⟩

/-- Completeness of the allocation backtracker: if some choice of one
candidate per column fills every ticket to 15, the search succeeds. -/
lemma allocSolve_complete :
    ∀ (cands : List (List (List ℕ))) (tots : List ℕ) (used : List ℕ)
      (sol : List (List ℕ)),
      used.length = 6 → List.Forall₂ CandProp cands tots →
      List.Forall₂ (fun v cl => v ∈ cl) sol cands →
      (∀ t < 6, used.getD t 0 + sumAt sol t = 15) →
      (allocSolve cands used).isSome := by
  intro cands
  induction cands with
  | nil =>
    intro tots used sol hlen _ hsol hsum
    have hs : sol = [] := by cases hsol; rfl
    subst hs
    rw [allocSolve, if_pos, Option.isSome_some]
    refine List.all_eq_true.mpr ?_
    intro x hx
    obtain ⟨t, ht, rfl⟩ := List.mem_iff_getElem.mp hx
    have ht6 : t < 6 := hlen ▸ ht
    have := hsum t ht6
    rw [sumAt_nil] at this
    have hgd : used.getD t 0 = used[t] := by
      simp [List.getD_eq_getElem?_getD, List.getElem?_eq_getElem ht]
    simp only [beq_iff_eq]
    omega
  | cons cl rest ih =>
    intro tots used sol hlen hf₂ hsol hsum
    obtain ⟨tot, tots', rfl, hhead, htail⟩ :
        ∃ tot tots', tots = tot :: tots' ∧ CandProp cl tot ∧ List.Forall₂ CandProp rest tots' := by
      cases hf₂ with
      | cons h₁ h₂ => exact ⟨_, _, rfl, h₁, h₂⟩
    obtain ⟨v, sol', rfl, hvmem, hsol'⟩ :
        ∃ v sol', sol = v :: sol' ∧ v ∈ cl ∧ List.Forall₂ (fun v cl => v ∈ cl) sol' rest := by
      cases hsol with
      | cons h₁ h₂ => exact ⟨_, _, rfl, h₁, h₂⟩
    obtain ⟨hvlen, hvbnd, hvsum⟩ := hhead v hvmem
    have hsol'len : sol'.length = rest.length := hsol'.length_eq
    have hwprops : ∀ w ∈ sol', w.length = 6 ∧ ∀ x ∈ w, 1 ≤ x ∧ x ≤ 3 := by
      intro w hw
      obtain ⟨cl', hcl', hwin⟩ := forall₂_mem_left hsol' w hw
      obtain ⟨tot'', _, hcp⟩ := forall₂_mem_left htail cl' hcl'
      obtain ⟨h1, h2, _⟩ := hcp w hwin
      exact ⟨h1, h2⟩
    have hbnds : ∀ t, t < 6 → ∀ w ∈ sol', 1 ≤ w.getD t 0 ∧ w.getD t 0 ≤ 3 := by
      intro t ht w hw
      obtain ⟨hl, hb⟩ := hwprops w hw
      have ht' : t < w.length := by omega
      have : w.getD t 0 = w[t] := by
        simp [List.getD_eq_getElem?_getD, List.getElem?_eq_getElem ht']
      rw [this]
      exact hb _ (List.getElem_mem ht')
    have hfeas : allocFeasible used v rest.length = true := by
      refine allocFeasible_true ?_
      intro u x hmem
      obtain ⟨i, hi, heq⟩ := List.mem_iff_getElem.mp hmem
      have hi6 : i < 6 := by
        rw [List.length_zip] at hi
        omega
      rw [List.getElem_zip] at heq
      injection heq with hequ heqx
      subst hequ
      subst heqx
      obtain ⟨hSlo, hShi⟩ := sumAt_bounds (hbnds i hi6)
      have hsumi := hsum i hi6
      rw [sumAt_cons] at hsumi
      have hgu : used.getD i 0 = used[i] := by
        simp [List.getD_eq_getElem?_getD, List.getElem?_eq_getElem (by omega : i < used.length)]
      have hgv : v.getD i 0 = v[i] := by
        simp [List.getD_eq_getElem?_getD, List.getElem?_eq_getElem (by omega : i < v.length)]
      rw [hgu, hgv] at hsumi
      rw [hsol'len] at hSlo hShi
      refine ⟨by omega, by omega, fun hL => ⟨by omega, by omega⟩⟩
    rw [allocSolve]
    refine firstSome_isSome hvmem ?_
    rw [if_pos hfeas]
    have hulen' : (List.zipWith (· + ·) used v).length = 6 := by
      rw [List.length_zipWith]; omega
    have hsum' : ∀ t < 6, (List.zipWith (· + ·) used v).getD t 0 + sumAt sol' t = 15 := by
      intro t ht
      rw [getD_zipWith_add (by omega) (by omega)]
      have := hsum t ht
      rw [sumAt_cons] at this
      omega
    have := ih tots' _ sol' hulen' htail hsol' hsum'
    cases hrec : allocSolve rest (List.zipWith (· + ·) used v) with
    | none => rw [hrec] at this; simp at this
    | some cols' => simp

end Housie

namespace Housie

lemma forall₂_get {α β : Type} {R : α → β → Prop} :
    ∀ {l₁ : List α} {l₂ : List β}, List.Forall₂ R l₁ l₂ →
      ∀ (i : ℕ) (h₁ : i < l₁.length) (h₂ : i < l₂.length), R l₁[i] l₂[i] := by
  intro l₁
  induction l₁ with
  | nil => intro l₂ _ i h₁; simp at h₁
  | cons x xs ih =>
    intro l₂ h i h₁ h₂
    cases h with
    | cons hx hxs =>
      match i with
      | 0 => exact hx
      | i + 1 => exact ih hxs i (by simpa using h₁) (by simpa using h₂)

lemma map_getD_range : ∀ (v : List ℕ), (List.range v.length).map (fun t => v.getD t 0) = v := by
  intro v
  induction v with
  | nil => rfl
  | cons a t ih =>
    rw [List.length_cons, List.range_succ_eq_map, List.map_cons, List.map_map]
    show a :: (List.range t.length).map (fun i => t.getD i 0) = a :: t
    rw [ih]

/-- Per-strip column sum of a ticket-major matrix (`sum(A[t][c] for t)`). -/
def colSumAt (A : List (List ℕ)) (c : ℕ) : ℕ :=
  (A.map fun row => row.getD c 0).sum

/-- The columns of one fixed admissible allocation, used as the
completeness certificate for `_alloc_strip_col_counts`. -/
def bcols : List (List ℕ) :=
  [[2, 2, 2, 1, 1, 1], [1, 2, 2, 2, 2, 1], [1, 1, 2, 2, 2, 2],
   [2, 1, 1, 2, 2, 2], [2, 2, 1, 1, 2, 2], [2, 2, 2, 1, 1, 2],
   [2, 2, 2, 2, 1, 1], [1, 2, 2, 2, 2, 1], [2, 1, 1, 2, 2, 3]]

/-- Specification of `_alloc_strip_col_counts`: for any shuffle of the
three candidate lists it succeeds and returns a 6×9 matrix with entries
in `[1,3]`, ticket (row) sums 15 and column sums `STRIP_COL_TOTALS`. -/
lemma alloc_spec {cand9 cand10 cand11 : List (List ℕ)}
    (h9 : cand9.Perm (compositions_of_total 9 6))
    (h10 : cand10.Perm (compositions_of_total 10 6))
    (h11 : cand11.Perm (compositions_of_total 11 6)) :
    ∃ A, _alloc_strip_col_counts cand9 cand10 cand11 = .ok A ∧
      A.length = 6 ∧
      (∀ row ∈ A, row.length = 9 ∧ (∀ x ∈ row, 1 ≤ x ∧ x ≤ 3) ∧ row.sum = 15) ∧
      ∀ c < 9, colSumAt A c = STRIP_COL_TOTALS.getD c 0 := by
  have hcp9 : CandProp cand9 9 := fun v hv => (mem_compositions 9 v).mp (h9.mem_iff.mp hv)
  have hcp10 : CandProp cand10 10 := fun v hv => (mem_compositions 10 v).mp (h10.mem_iff.mp hv)
  have hcp11 : CandProp cand11 11 := fun v hv => (mem_compositions 11 v).mp (h11.mem_iff.mp hv)
  have hforall : List.Forall₂ CandProp ([cand9] ++ List.replicate 7 cand10 ++ [cand11])
      STRIP_COL_TOTALS := by
    show List.Forall₂ CandProp
      [cand9, cand10, cand10, cand10, cand10, cand10, cand10, cand10, cand11]
      [9, 10, 10, 10, 10, 10, 10, 10, 11]
    exact .cons hcp9 (.cons hcp10 (.cons hcp10 (.cons hcp10 (.cons hcp10 (.cons hcp10
      (.cons hcp10 (.cons hcp10 (.cons hcp11 .nil))))))))
  have hmem₂ : List.Forall₂ (fun v cl => v ∈ cl)
      bcols ([cand9] ++ List.replicate 7 cand10 ++ [cand11]) := by
    show List.Forall₂ _ bcols
      [cand9, cand10, cand10, cand10, cand10, cand10, cand10, cand10, cand11]
    refine .cons (h9.mem_iff.mpr ((mem_compositions 9 _).mpr (by decide)))
      (.cons (h10.mem_iff.mpr ((mem_compositions 10 _).mpr (by decide)))
      (.cons (h10.mem_iff.mpr ((mem_compositions 10 _).mpr (by decide)))
      (.cons (h10.mem_iff.mpr ((mem_compositions 10 _).mpr (by decide)))
      (.cons (h10.mem_iff.mpr ((mem_compositions 10 _).mpr (by decide)))
      (.cons (h10.mem_iff.mpr ((mem_compositions 10 _).mpr (by decide)))
      (.cons (h10.mem_iff.mpr ((mem_compositions 10 _).mpr (by decide)))
      (.cons (h10.mem_iff.mpr ((mem_compositions 10 _).mpr (by decide)))
      (.cons (h11.mem_iff.mpr ((mem_compositions 11 _).mpr (by decide))) .nil))))))))
  have hsum : ∀ t < 6, (List.replicate 6 0).getD t 0 + sumAt bcols t = 15 := by
    intro t ht
    interval_cases t <;> decide
  have hsome := allocSolve_complete _ STRIP_COL_TOTALS (List.replicate 6 0) bcols
    (by simp) hforall hmem₂ hsum
  obtain ⟨cols, hcols⟩ := Option.isSome_iff_exists.mp hsome
  obtain ⟨hf₂, hsums⟩ := allocSolve_sound _ STRIP_COL_TOTALS (List.replicate 6 0) cols
    (by simp) hforall hcols
  have hclen : cols.length = 9 := by
    have := hf₂.length_eq
    simpa using this
  refine ⟨colsToMatrix cols, ?_, ?_, ?_, ?_⟩
  · simp only [_alloc_strip_col_counts, hcols]
  · simp [colsToMatrix]
  · intro row hrow
    obtain ⟨t, ht, rfl⟩ := List.mem_map.mp hrow
    have ht6 : t < 6 := by simpa using List.mem_range.mp ht
    refine ⟨by simp [hclen], ?_, ?_⟩
    · intro x hx
      obtain ⟨col, hcol, rfl⟩ := List.mem_map.mp hx
      obtain ⟨tot, _, hlen6, hbnd, _⟩ :
          ∃ tot ∈ STRIP_COL_TOTALS, col.length = 6 ∧ (∀ x ∈ col, 1 ≤ x ∧ x ≤ 3) ∧
            col.sum = tot := by
        obtain ⟨tot, htot, h1, h2, h3⟩ := forall₂_mem_left hf₂ col hcol
        exact ⟨tot, htot, h1, h2, h3⟩
      have hgd : col.getD t 0 = col.get ⟨t, by omega⟩ := by
        simp [List.getD_eq_getElem?_getD, List.getElem?_eq_getElem (by omega : t < col.length)]
      rw [hgd]
      exact hbnd _ (List.get_mem col t (by omega))
    · have := hsums t ht6
      have hrepl : (List.replicate 6 (0 : ℕ)).getD t 0 = 0 := by
        interval_cases t <;> rfl
      rw [hrepl] at this
      simpa [sumAt] using this
  · intro c hc
    have hc' : c < cols.length := by omega
    have hmap : (colsToMatrix cols).map (fun row => row.getD c 0)
        = (List.range 6).map fun t => cols[c].getD t 0 := by
      rw [colsToMatrix, List.map_map]
      refine List.map_congr_left ?_
      intro t _
      simp only [Function.comp]
      rw [List.getD_eq_getElem?_getD, List.getElem?_map, List.getElem?_eq_getElem hc']
      rfl
    have hlc : cols[c].length = 6 := (forall₂_get hf₂ c hc' (by simp [STRIP_COL_TOTALS]; omega)).1
    have hsc : cols[c].sum
        = STRIP_COL_TOTALS.get ⟨c, by simp [STRIP_COL_TOTALS]; omega⟩ :=
      (forall₂_get hf₂ c hc' (by simp [STRIP_COL_TOTALS]; omega)).2.2
    rw [colSumAt, hmap]
    rw [← hlc, map_getD_range]
    rw [hsc]
    simp [List.getD_eq_getElem?_getD, List.getElem?_eq_getElem
      (by simp [STRIP_COL_TOTALS]; omega : c < STRIP_COL_TOTALS.length)]

end Housie

namespace Housie

/-! ### A declarative characterization of `validate_strip` -/

/-- The per-column conditions `validate_strip` checks inside one ticket. -/
def ColOK (t : Ticket) (c : ℕ) : Prop :=
  1 ≤ (colVals t c).length ∧ (colVals t c).length ≤ 3 ∧
  (∀ n ∈ colVals t c, _in_col_range c n = true) ∧
  colVals t c = (colVals t c).insertionSort (· ≤ ·)

/-- The per-ticket conditions of `validate_strip` that do not involve the
rest of the strip. -/
def TicketOK (t : Ticket) : Prop :=
  t.length = 3 ∧ (∀ r < 3, (t.getD r []).length = 9) ∧
  (∀ row ∈ t, rowNumCount row = 5) ∧ ∀ c < 9, ColOK t c

/-- All truthy values of one ticket, in the order `validate_strip` visits
them (column-major: column 0 top to bottom, then column 1, …). -/
def tVals (t : Ticket) : List ℕ :=
  (List.range 9).flatMap (colVals t)

/-- All truthy values of a strip in visiting order. -/
def stripVals (s : Strip) : List ℕ :=
  s.flatMap tVals

/-- Number of truthy cells column `c` holds across the whole strip. -/
def colTotal (s : Strip) (c : ℕ) : ℕ :=
  (s.map fun t => (colVals t c).length).sum

/-- The conjunction of everything `validate_strip` verifies. -/
def ValidStrip (s : Strip) : Prop :=
  s.length = 6 ∧ (∀ t ∈ s, TicketOK t) ∧ (stripVals s).Nodup ∧
  (∀ n, n ∈ stripVals s ↔ 1 ≤ n ∧ n ≤ 90) ∧
  ∀ c < 9, colTotal s c = STRIP_COL_TOTALS.getD c 0

lemma addSeen_eq_ok : ∀ (vals seen : List ℕ) (out : List ℕ),
    addSeen seen vals = .ok out ↔
      vals.Nodup ∧ (∀ v ∈ vals, v ∉ seen) ∧ out = seen ++ vals := by
  intro vals
  induction vals with
  | nil =>
    intro seen out
    simp only [addSeen, List.nodup_nil, List.not_mem_nil, List.append_nil]
    constructor
    · intro h
      refine ⟨trivial, by simp, ?_⟩
      cases h
      rfl
    · rintro ⟨_, _, rfl⟩
      rfl
  | cons n ns ih =>
    intro seen out
    rw [addSeen]
    split
    · rename_i hmem
      simp only [List.nodup_cons]
      constructor
      · intro h
        cases h
      · rintro ⟨_, habs, _⟩
        exact absurd hmem (habs n (by simp))
    · rename_i hmem
      rw [ih]
      constructor
      · rintro ⟨h1, h2, rfl⟩
        refine ⟨List.nodup_cons.mpr ⟨fun hc => (h2 n (by simp [hc])) (by simp), h1⟩, ?_, by simp⟩
        intro v hv
        rcases List.mem_cons.mp hv with rfl | hv'
        · exact hmem
        · intro hvs
          exact (h2 v hv') (by simp [hvs])
      · rintro ⟨h1, h2, rfl⟩
        obtain ⟨hn, hns⟩ := List.nodup_cons.mp h1
        refine ⟨hns, ?_, by simp⟩
        intro v hv
        simp only [List.mem_append, List.mem_singleton]
        rintro (hvs | rfl)
        · exact (h2 v (by simp [hv])) hvs
        · exact hn hv

/-- The `col_totals` updates of one ticket, in column order. -/
def ctFold (t : Ticket) (ct : List ℕ) (cs : List ℕ) : List ℕ :=
  cs.foldl (fun acc c => acc.set c (acc.getD c 0 + (colVals t c).length)) ct

lemma getD_set_self {l : List ℕ} {i : ℕ} (h : i < l.length) (v : ℕ) :
    (l.set i v).getD i 0 = v := by
  simp [List.getD_eq_getElem?_getD, List.getElem?_set_self, h]

lemma getD_set_ne {l : List ℕ} {i j : ℕ} (h : i ≠ j) (v : ℕ) :
    (l.set i v).getD j 0 = l.getD j 0 := by
  simp [List.getD_eq_getElem?_getD, List.getElem?_set_ne h]

lemma getD_eq_getElem {l : List ℕ} {i : ℕ} (h : i < l.length) : l.getD i 0 = l[i] := by
  rw [List.getD_eq_getElem?_getD, List.getElem?_eq_getElem h]
  rfl

lemma getD_eq_getElem' {α : Type} {l : List α} {i : ℕ} (h : i < l.length) (d : α) :
    l.getD i d = l[i] := by
  rw [List.getD_eq_getElem?_getD, List.getElem?_eq_getElem h]
  rfl

lemma ctFold_spec (t : Ticket) : ∀ (cs : List ℕ) (ct : List ℕ),
    (∀ c ∈ cs, c < ct.length) → cs.Nodup →
    (ctFold t ct cs).length = ct.length ∧
    ∀ c, (ctFold t ct cs).getD c 0
        = ct.getD c 0 + (if c ∈ cs then (colVals t c).length else 0) := by
  intro cs
  induction cs with
  | nil =>
    intro ct _ _
    exact ⟨rfl, by simp [ctFold]⟩
  | cons c0 cs' ih =>
    intro ct hlt hnd
    obtain ⟨hc0, hcs'⟩ := List.nodup_cons.mp hnd
    have hstep : ctFold t ct (c0 :: cs')
        = ctFold t (ct.set c0 (ct.getD c0 0 + (colVals t c0).length)) cs' := rfl
    have hlt' : ∀ c ∈ cs', c < (ct.set c0 (ct.getD c0 0 + (colVals t c0).length)).length := by
      intro c hc
      rw [List.length_set]
      exact hlt c (by simp [hc])
    obtain ⟨ihlen, ihget⟩ := ih _ hlt' hcs'
    rw [hstep]
    refine ⟨by rw [ihlen, List.length_set], ?_⟩
    intro c
    rw [ihget c]
    by_cases hc : c = c0
    · subst hc
      rw [getD_set_self (hlt c (by simp)) _, if_neg hc0, if_pos (by simp)]
      omega
    · rw [getD_set_ne (fun h => hc h.symm) _]
      by_cases hc' : c ∈ cs' <;> simp [hc', hc]

end Housie

namespace Housie

lemma checkCols_eq_ok (tIdx : ℕ) (t : Ticket) :
    ∀ (cs seen ct : List ℕ) (out : List ℕ × List ℕ),
    checkCols tIdx t cs seen ct = .ok out ↔
      (∀ c ∈ cs, ColOK t c) ∧ (cs.flatMap (colVals t)).Nodup ∧
      (∀ v ∈ cs.flatMap (colVals t), v ∉ seen) ∧
      out = (seen ++ cs.flatMap (colVals t), ctFold t ct cs) := by
  intro cs
  induction cs with
  | nil =>
    intro seen ct out
    simp only [checkCols, List.flatMap_nil, List.nodup_nil, List.not_mem_nil,
      List.append_nil]
    constructor
    · intro h
      cases h
      exact ⟨by simp, trivial, by simp, rfl⟩
    · rintro ⟨_, _, _, rfl⟩
      rfl
  | cons c cs' ih =>
    intro seen ct out
    rw [checkCols]
    rw [List.flatMap_cons]
    split
    · rename_i hk
      simp only [Bool.or_eq_true, decide_eq_true_eq] at hk
      constructor
      · intro h; cases h
      · rintro ⟨hok, _, _, _⟩
        obtain ⟨h1, h2, _, _⟩ := hok c (by simp)
        omega
    · rename_i hk
      simp only [Bool.or_eq_true, decide_eq_true_eq, not_or] at hk
      split
      · rename_i hrange
        simp only [Bool.not_eq_eq_eq_not, Bool.not_true, List.all_eq_false] at hrange
        constructor
        · intro h; cases h
        · rintro ⟨hok, _, _, _⟩
          obtain ⟨_, _, h3, _⟩ := hok c (by simp)
          obtain ⟨x, hx, hnr⟩ := hrange
          exact absurd (h3 x hx) (by simpa using hnr)
      · rename_i hrange
        simp only [Bool.not_eq_eq_eq_not, Bool.not_true, List.all_eq_false, not_exists,
          not_and] at hrange
        split
        · rename_i hsort
          constructor
          · intro h; cases h
          · rintro ⟨hok, _, _, _⟩
            obtain ⟨_, _, _, h4⟩ := hok c (by simp)
            exact absurd h4 hsort
        · rename_i hsort
          rw [not_not] at hsort
          cases haddSeen : addSeen seen (colVals t c) with
          | error e =>
            constructor
            · intro h; cases h
            · rintro ⟨hok, hnd, hdisj, _⟩
              rw [List.nodup_append] at hnd
              have : addSeen seen (colVals t c) = .ok (seen ++ colVals t c) :=
                (addSeen_eq_ok _ _ _).mpr
                  ⟨hnd.1, fun v hv => hdisj v (by simp [hv]), rfl⟩
              rw [haddSeen] at this
              cases this
          | ok seen' =>
            obtain ⟨hvnd, hvdisj, rfl⟩ := (addSeen_eq_ok _ _ _).mp haddSeen
            rw [ih]
            have hfold : ctFold t ct (c :: cs')
                = ctFold t (ct.set c (ct.getD c 0 + (colVals t c).length)) cs' := rfl
            constructor
            · rintro ⟨hok', hnd', hdisj', rfl⟩
              refine ⟨?_, ?_, ?_, ?_⟩
              · intro c' hc'
                rcases List.mem_cons.mp hc' with rfl | hc''
                · obtain ⟨hk1, hk2⟩ := hk
                  refine ⟨by omega, by omega, ?_, hsort⟩
                  intro n hn
                  have := hrange n hn
                  simpa using this
                · exact hok' c' hc''
              · rw [List.nodup_append]
                refine ⟨hvnd, hnd', ?_⟩
                intro v hv hv'
                exact (hdisj' v hv') (by simp [hv])
              · intro v hv hvseen
                rcases List.mem_append.mp hv with hv' | hv'
                · exact (hvdisj v hv') hvseen
                · exact (hdisj' v hv') (by simp [hvseen])
              · rw [hfold, List.append_assoc]
            · rintro ⟨hok', hnd', hdisj', rfl⟩
              rw [List.nodup_append] at hnd'
              refine ⟨?_, ?_, ?_, ?_⟩
              · intro c' hc'
                exact hok' c' (by simp [hc'])
              · exact hnd'.2.1
              · intro v hv
                simp only [List.mem_append, not_or]
                refine ⟨fun hvs => (hdisj' v (by simp [hv])) hvs, ?_⟩
                intro hvc
                exact hnd'.2.2 hvc hv
              · rw [hfold, List.append_assoc]
  
end Housie

namespace Housie

lemma checkTicket_eq_ok (tIdx : ℕ) (t : Ticket) (seen ct : List ℕ)
    (out : List ℕ × List ℕ) :
    checkTicket tIdx t seen ct = .ok out ↔
      TicketOK t ∧ (tVals t).Nodup ∧ (∀ v ∈ tVals t, v ∉ seen) ∧
      out = (seen ++ tVals t, ctFold t ct (List.range 9)) := by
  rw [checkTicket]
  split
  · rename_i h3
    constructor
    · intro h; cases h
    · rintro ⟨⟨hl, _⟩, _⟩
      exact absurd hl h3
  · rename_i h3
    rw [not_not] at h3
    cases hbad : badRowIdx t with
    | some r =>
      constructor
      · intro h; cases h
      · rintro ⟨⟨_, hrows, _⟩, _⟩
        have hp := List.find?_some hbad
        have hmem := List.mem_of_find?_eq_some hbad
        have hr3 : r < 3 := List.mem_range.mp hmem
        have := hrows r hr3
        simp only [this] at hp
        simp at hp
    | none =>
      have hrows : ∀ r < 3, (t.getD r []).length = 9 := by
        intro r hr
        have := List.find?_eq_none.mp hbad r (List.mem_range.mpr hr)
        simpa using this
      by_cases hcount : (t.all fun row => rowNumCount row == 5) = true
      · rw [if_neg (by simp [hcount])]
        rw [List.all_eq_true] at hcount
        rw [checkCols_eq_ok]
        unfold TicketOK tVals
        constructor
        · rintro ⟨hok, hnd, hdisj, rfl⟩
          exact ⟨⟨h3, hrows, fun row hrow => by simpa using hcount row hrow,
            fun c hc => hok c (List.mem_range.mpr hc)⟩, hnd, hdisj, rfl⟩
        · rintro ⟨⟨_, _, _, hok⟩, hnd, hdisj, rfl⟩
          exact ⟨fun c hc => hok c (List.mem_range.mp hc), hnd, hdisj, rfl⟩
      · rw [if_pos (by simp [Bool.not_eq_eq_eq_not]; simpa using hcount)]
        constructor
        · intro h
          simp at h
        · rintro ⟨⟨_, _, hcnt, _⟩, _⟩
          refine absurd ?_ hcount
          rw [List.all_eq_true]
          intro row hrow
          simpa using hcnt row hrow

/-- Accumulated `col_totals` over a list of tickets. -/
def ctTickets (ts : List Ticket) (ct : List ℕ) : List ℕ :=
  ts.foldl (fun acc t => ctFold t acc (List.range 9)) ct

lemma vloop_eq_ok : ∀ (ts : List Ticket) (i : ℕ) (seen ct : List ℕ)
    (out : List ℕ × List ℕ),
    vloop ts i seen ct = .ok out ↔
      (∀ t ∈ ts, TicketOK t) ∧ (ts.flatMap tVals).Nodup ∧
      (∀ v ∈ ts.flatMap tVals, v ∉ seen) ∧
      out = (seen ++ ts.flatMap tVals, ctTickets ts ct) := by
  intro ts
  induction ts with
  | nil =>
    intro i seen ct out
    simp only [vloop, List.flatMap_nil, List.nodup_nil, List.not_mem_nil, List.append_nil]
    constructor
    · intro h
      cases h
      exact ⟨by simp, trivial, by simp, rfl⟩
    · rintro ⟨_, _, _, rfl⟩
      rfl
  | cons t ts' ih =>
    intro i seen ct out
    rw [vloop, List.flatMap_cons]
    cases hct : checkTicket i t seen ct with
    | error e =>
      constructor
      · intro h; cases h
      · rintro ⟨hok, hnd, hdisj, _⟩
        rw [List.nodup_append] at hnd
        have : checkTicket i t seen ct = .ok (seen ++ tVals t, ctFold t ct (List.range 9)) :=
          (checkTicket_eq_ok _ _ _ _ _).mpr
            ⟨hok t (by simp), hnd.1, fun v hv => hdisj v (by simp [hv]), rfl⟩
        rw [hct] at this
        cases this
    | ok p =>
      obtain ⟨seen', ct'⟩ := p
      obtain ⟨hokt, hndt, hdisjt, hpair⟩ := (checkTicket_eq_ok _ _ _ _ _).mp hct
      obtain ⟨rfl, rfl⟩ : seen' = seen ++ tVals t ∧ ct' = ctFold t ct (List.range 9) := by
        constructor <;> simp [Prod.ext_iff] at hpair <;> tauto
      rw [ih]
      have hctt : ctTickets (t :: ts') ct = ctTickets ts' (ctFold t ct (List.range 9)) := rfl
      constructor
      · rintro ⟨hok', hnd', hdisj', rfl⟩
        refine ⟨?_, ?_, ?_, ?_⟩
        · intro t' ht'
          rcases List.mem_cons.mp ht' with rfl | ht''
          · exact hokt
          · exact hok' t' ht''
        · rw [List.nodup_append]
          refine ⟨hndt, hnd', ?_⟩
          intro v hv hv'
          exact (hdisj' v hv') (by simp [hv])
        · intro v hv hvseen
          rcases List.mem_append.mp hv with hv' | hv'
          · exact (hdisjt v hv') hvseen
          · exact (hdisj' v hv') (by simp [hvseen])
        · rw [hctt, List.append_assoc]
      · rintro ⟨hok', hnd', hdisj', rfl⟩
        rw [List.nodup_append] at hnd'
        refine ⟨?_, ?_, ?_, ?_⟩
        · intro t' ht'
          exact hok' t' (by simp [ht'])
        · exact hnd'.2.1
        · intro v hv
          simp only [List.mem_append, not_or]
          refine ⟨fun hvs => (hdisj' v (by simp [hv])) hvs, ?_⟩
          intro hvc
          exact hnd'.2.2 hvc hv
        · rw [hctt, List.append_assoc]

end Housie

namespace Housie

lemma colTotal_cons (t : Ticket) (ts : List Ticket) (c : ℕ) :
    colTotal (t :: ts) c = (colVals t c).length + colTotal ts c := by
  simp [colTotal]

lemma ctTickets_spec : ∀ (ts : List Ticket) (ct : List ℕ), ct.length = 9 →
    (ctTickets ts ct).length = 9 ∧
    ∀ c < 9, (ctTickets ts ct).getD c 0 = ct.getD c 0 + colTotal ts c := by
  intro ts
  induction ts with
  | nil =>
    intro ct hlen
    exact ⟨hlen, fun c _ => by simp [ctTickets, colTotal]⟩
  | cons t ts' ih =>
    intro ct hlen
    have hstep : ctTickets (t :: ts') ct = ctTickets ts' (ctFold t ct (List.range 9)) := rfl
    obtain ⟨hflen, hfget⟩ := ctFold_spec t (List.range 9) ct
      (fun c hc => by rw [hlen]; exact List.mem_range.mp hc) (List.nodup_range 9)
    obtain ⟨ihlen, ihget⟩ := ih _ (by rw [hflen, hlen])
    rw [hstep]
    refine ⟨ihlen, ?_⟩
    intro c hc
    rw [ihget c hc, hfget c, if_pos (List.mem_range.mpr hc), colTotal_cons]
    omega

lemma seenEq1to90_iff (seen : List ℕ) :
    seenEq1to90 seen = true ↔ ∀ n, n ∈ seen ↔ 1 ≤ n ∧ n ≤ 90 := by
  rw [seenEq1to90]
  simp only [Bool.and_eq_true, List.all_eq_true, List.mem_range'_1, decide_eq_true_eq,
    List.elem_iff]
  constructor
  · rintro ⟨h1, h2⟩
    intro n
    constructor
    · intro hn
      obtain ⟨ha, hb⟩ := h2 n hn
      exact ⟨ha, hb⟩
    · rintro ⟨ha, hb⟩
      exact h1 n ⟨ha, by omega⟩
  · intro h
    constructor
    · intro n hn
      exact (h n).mpr ⟨hn.1, by omega⟩
    · intro n hn
      exact (h n).mp hn

/-- `validate_strip` succeeds exactly on valid strips, and then its
message is `"ok"`. -/
theorem validate_ok_iff (s : Strip) :
    validate_strip s = (true, "ok") ↔ ValidStrip s := by
  rw [validate_strip]
  split
  · rename_i h6
    constructor
    · intro h
      cases h
    · rintro ⟨hl, _⟩
      exact absurd hl h6
  · rename_i h6
    rw [not_not] at h6
    cases hv : vloop s 0 [] (List.replicate 9 0) with
    | error e =>
      split
      · rename_i e' heq
        constructor
        · intro h; cases h
        · rintro ⟨_, hok, hnd, hmem, _⟩
          have : vloop s 0 [] (List.replicate 9 0)
              = .ok ([] ++ s.flatMap tVals, ctTickets s (List.replicate 9 0)) :=
            (vloop_eq_ok s 0 [] _ _).mpr ⟨hok, hnd, by simp, rfl⟩
          rw [hv] at this
          cases this
      · rename_i heq
        cases heq
    | ok p =>
      obtain ⟨seen, ct⟩ := p
      obtain ⟨hok, hnd, _, hpair⟩ := (vloop_eq_ok s 0 [] _ _).mp hv
      obtain ⟨rfl, rfl⟩ : seen = s.flatMap tVals ∧ ct = ctTickets s (List.replicate 9 0) := by
        simp [Prod.ext_iff] at hpair
        tauto
      obtain ⟨hctlen, hctget⟩ := ctTickets_spec s (List.replicate 9 0) (by simp)
      have hctget' : ∀ c < 9, (ctTickets s (List.replicate 9 0)).getD c 0 = colTotal s c := by
        intro c hc
        rw [hctget c hc]
        have : (List.replicate 9 (0 : ℕ)).getD c 0 = 0 := by
          interval_cases c <;> rfl
        omega
      split
      · rename_i heq
        cases heq
      · rename_i seen' ct' heq
        obtain ⟨rfl, rfl⟩ : seen' = s.flatMap tVals ∧ ct' = ctTickets s (List.replicate 9 0) := by
          injection heq with h
          exact ⟨(congrArg Prod.fst h).symm, (congrArg Prod.snd h).symm⟩
        by_cases hseen : seenEq1to90 (s.flatMap tVals) = true
        · rw [if_neg (by simp [hseen])]
          by_cases hcteq : ctTickets s (List.replicate 9 0) = STRIP_COL_TOTALS
          · rw [if_neg (fun hne => hne hcteq)]
            constructor
            · intro _
              refine ⟨h6, hok, hnd, ?_, ?_⟩
              · have := (seenEq1to90_iff _).mp hseen
                intro n
                exact this n
              · intro c hc
                rw [← hctget' c hc, hcteq]
            · intro _
              rfl
          · rw [if_pos hcteq]
            constructor
            · intro h; cases h
            · rintro ⟨_, _, _, _, htot⟩
              refine absurd ?_ hcteq
              refine List.ext_getElem (by rw [hctlen]; rfl) ?_
              intro i h₁ h₂
              have hi9 : i < 9 := by omega
              rw [← getD_eq_getElem h₁, ← getD_eq_getElem h₂, hctget' i hi9, htot i hi9]
        · rw [if_pos (by
            cases hb : seenEq1to90 (s.flatMap tVals)
            · simp
            · exact absurd hb hseen)]
          constructor
          · intro h; cases h
          · rintro ⟨_, _, _, hmem, _⟩
            refine absurd ?_ hseen
            rw [seenEq1to90_iff]
            intro n
            exact hmem n

end Housie

namespace Housie

/-- `validate_strip` either passes with message `"ok"` or its verdict is
`False`. -/
lemma validate_cases (s : Strip) :
    validate_strip s = (true, "ok") ∨ (validate_strip s).1 = false := by
  rw [validate_strip]
  split
  · right; rfl
  · split
    · right; rfl
    · split
      · right; rfl
      · split
        · right; rfl
        · left; rfl

lemma validate_of_fst_true {s : Strip} (h : (validate_strip s).1 = true) :
    validate_strip s = (true, "ok") := by
  rcases validate_cases s with h' | h'
  · exact h'
  · rw [h'] at h
    cases h

/-! ### The 0-as-blank convention of `validate_strip` (claim C10) -/

/-- Normal form of a cell under truthiness: a `0` cell becomes `None`. -/
def normCell : Cell → Cell
  | some 0 => none
  | c => c

/-- Cell-wise normal form of a strip. -/
def normStrip (s : Strip) : Strip :=
  s.map fun t => t.map fun row => row.map normCell

lemma normCell_none : normCell none = none := rfl

lemma truthy_normCell (c : Cell) : truthy (normCell c) = truthy c := by
  match c with
  | none => rfl
  | some 0 => rfl
  | some (n + 1) => rfl

lemma bind_normCell (c : Cell) :
    ((normCell c).bind fun n => if n = 0 then none else some n)
      = c.bind fun n => if n = 0 then none else some n := by
  match c with
  | none => rfl
  | some 0 => rfl
  | some (n + 1) => rfl

lemma getD_map_normCell (t : Ticket) (r : ℕ) :
    (t.map fun row => row.map normCell).getD r [] = (t.getD r []).map normCell := by
  rcases Nat.lt_or_ge r t.length with h | h
  · rw [List.getD_eq_getElem?_getD, List.getElem?_map, List.getElem?_eq_getElem h]
    simp [List.getD_eq_getElem?_getD, List.getElem?_eq_getElem h]
  · rw [List.getD_eq_getElem?_getD, List.getElem?_map,
      List.getElem?_eq_none (by simpa using h)]
    rw [List.getD_eq_getElem?_getD, List.getElem?_eq_none (by simpa using h)]
    rfl

lemma getCell_normStrip (t : Ticket) (r c : ℕ) :
    getCell (t.map fun row => row.map normCell) r c = normCell (getCell t r c) := by
  rw [getCell, getCell, getD_map_normCell]
  rcases Nat.lt_or_ge c (t.getD r []).length with h | h
  · rw [getD_eq_getElem' (by simpa using h) none, getD_eq_getElem' h none, List.getElem_map]
  · rw [List.getD_eq_getElem?_getD, List.getElem?_map,
      List.getElem?_eq_none (by simpa using h)]
    rw [List.getD_eq_getElem?_getD, List.getElem?_eq_none (by simpa using h)]
    rfl

lemma colVals_normTicket (t : Ticket) (c : ℕ) :
    colVals (t.map fun row => row.map normCell) c = colVals t c := by
  rw [colVals, colVals]
  refine List.filterMap_congr ?_
  intro r _
  rw [getCell_normStrip, bind_normCell]

lemma rowNumCount_normRow (row : Row) :
    rowNumCount (row.map normCell) = rowNumCount row := by
  rw [rowNumCount, rowNumCount, List.filter_map]
  have : (truthy ∘ normCell) = truthy := by
    funext c
    exact truthy_normCell c
  rw [this, List.length_map]

end Housie

namespace Housie

lemma checkCols_norm (i : ℕ) (t : Ticket) : ∀ (cs seen ct : List ℕ),
    checkCols i (t.map fun row => row.map normCell) cs seen ct
      = checkCols i t cs seen ct := by
  intro cs
  induction cs with
  | nil => intro seen ct; rfl
  | cons c cs' ih =>
    intro seen ct
    rw [checkCols, checkCols, colVals_normTicket]
    simp only [ih]

lemma badRowIdx_norm (t : Ticket) :
    badRowIdx (t.map fun row => row.map normCell) = badRowIdx t := by
  rw [badRowIdx, badRowIdx]
  congr 1
  funext r
  rw [getD_map_normCell, List.length_map]

lemma checkTicket_norm (i : ℕ) (t : Ticket) (seen ct : List ℕ) :
    checkTicket i (t.map fun row => row.map normCell) seen ct
      = checkTicket i t seen ct := by
  rw [checkTicket, checkTicket]
  have hlen : (t.map fun row => row.map normCell).length = t.length := by simp
  have hall : ((t.map fun row => row.map normCell).all fun row => rowNumCount row == 5)
      = t.all fun row => rowNumCount row == 5 := by
    rw [List.all_map]
    congr 1
    funext row
    simp [Function.comp, rowNumCount_normRow]
  rw [hlen, badRowIdx_norm, hall, checkCols_norm]

lemma vloop_norm : ∀ (ts : List Ticket) (i : ℕ) (seen ct : List ℕ),
    vloop (ts.map fun t => t.map fun row => row.map normCell) i seen ct
      = vloop ts i seen ct := by
  intro ts
  induction ts with
  | nil => intro i seen ct; rfl
  | cons t ts' ih =>
    intro i seen ct
    rw [List.map_cons, vloop, vloop, checkTicket_norm]
    simp only [ih]

/-- `validate_strip` cannot distinguish a `0` cell from a `None` cell:
its verdict and message only depend on the truthiness normal form. -/
theorem validate_norm (s : Strip) :
    validate_strip (normStrip s) = validate_strip s := by
  rw [validate_strip, validate_strip]
  have hlen : (normStrip s).length = s.length := by simp [normStrip]
  rw [hlen]
  rw [show vloop (normStrip s) 0 [] (List.replicate 9 0)
      = vloop s 0 [] (List.replicate 9 0) from vloop_norm s 0 [] _]

end Housie

namespace Housie

/-! ### Claim theorems -/

/-- A 3×9 ticket with no numbers at all (used as a concrete test input). -/
def emptyTicket : Ticket :=
  List.replicate 3 (List.replicate 9 (none : Cell))

/-- C3, counterexample.  The claim says a 5-ticket strip makes
`validate_strip` fail with a fatal `ContractViolation`, "distinct from —
and not in the form of — an ordinary rule-violation pass/fail report".
In the code there is no exception path at all: `validate_strip` returns
the ordinary `(False, message)` report for the 5-ticket strip, exactly
the same form it returns for an ordinary rule violation on a well-shaped
strip (second conjunct). -/
theorem claim_C3_counterexample :
    validate_strip (List.replicate 5 emptyTicket)
        = (false, "strip must contain 6 tickets") ∧
    validate_strip (List.replicate 6 emptyTicket)
        = (false, "ticket 0: each row must have 5 numbers") := by
  constructor <;> rfl

/-- C3, amended.  Any strip whose ticket count is not 6 (in particular
the 5-ticket strip) makes `validate_strip` return the ordinary
rule-violation-style report `(False, "strip must contain 6 tickets")`;
no distinct fatal `ContractViolation` kind exists in the code. -/
theorem claim_C3 (s : Strip) (h : s.length ≠ 6) :
    validate_strip s = (false, "strip must contain 6 tickets") := by
  rw [validate_strip, if_pos h]

/-- C3, witness: the amended claim applied to a concrete 5-ticket strip. -/
theorem claim_C3_witness :
    validate_strip (List.replicate 5 ([] : Ticket))
        = (false, "strip must contain 6 tickets") :=
  claim_C3 (List.replicate 5 ([] : Ticket)) (by decide)

/-- C10.  `validate_strip` treats a `0` cell exactly like a `None` cell:
any two strips that agree after replacing every `0` cell by `None`
(so: strips differing only in `None` ↔ `0` swaps at any set of cells)
get the same verdict and the same message.  A `0` cell is Python-falsy,
so it never counts toward row or column counts and is never
range-checked. -/
theorem claim_C10 (s₁ s₂ : Strip) (h : normStrip s₁ = normStrip s₂) :
    validate_strip s₁ = validate_strip s₂ := by
  calc validate_strip s₁ = validate_strip (normStrip s₁) := (validate_norm s₁).symm
    _ = validate_strip (normStrip s₂) := by rw [h]
    _ = validate_strip s₂ := validate_norm s₂

/-- C10, witness: a strip with a `None` cell versus the same strip with
that cell holding `0` — same (here: failing) verdict and message. -/
theorem claim_C10_witness :
    normStrip [[[some 1, none]]] = normStrip [[[some 1, some 0]]] ∧
    validate_strip [[[some 1, none]]] = validate_strip [[[some 1, some 0]]] :=
  ⟨by decide, claim_C10 [[[some 1, none]]] [[[some 1, some 0]]] (by decide)⟩

end Housie

namespace Housie

lemma sum_map_ite (r : ℕ) : ∀ (l : List (List ℕ)),
    (l.map fun cb => if r ∈ cb then 1 else 0).sum = rowUses l r := by
  intro l
  induction l with
  | nil => rfl
  | cons cb cbs ih =>
    rw [List.map_cons, List.sum_cons, ih, rowUses_cons]

lemma sum_map_indicator (cb : List ℕ) : ∀ l : List ℕ,
    (l.map fun r => if r ∈ cb then 1 else 0).sum
      = (l.filter fun r => decide (r ∈ cb)).length := by
  intro l
  induction l with
  | nil => rfl
  | cons a l' ih =>
    rw [List.map_cons, List.sum_cons, ih, List.filter_cons]
    by_cases hm : a ∈ cb <;> simp [hm, Nat.add_comm]

lemma maskOfCombs_row (combs : List (List ℕ)) {r : ℕ} (hr : r < 3) :
    (maskOfCombs combs).getD r [] = combs.map fun cb => if r ∈ cb then 1 else 0 := by
  rw [maskOfCombs]
  rw [getD_eq_getElem' (by simpa using hr) [], List.getElem_map]
  simp [List.getElem_range]

lemma rowsAt_maskOfCombs {combs : List (List ℕ)} {c : ℕ} (hc : c < combs.length)
    (hsub : (combs.getD c []).Sublist [0, 1, 2]) :
    rowsAt (maskOfCombs combs) c = combs.getD c [] := by
  have hcd : combs.getD c [] = combs[c] := getD_eq_getElem' hc []
  rw [hcd] at hsub
  rw [rowsAt, hcd]
  have hentry : ∀ r ∈ List.range 3,
      (((maskOfCombs combs).getD r []).getD c 0 == 1) = decide (r ∈ combs[c]) := by
    intro r hr
    rw [maskOfCombs_row combs (List.mem_range.mp hr)]
    rw [getD_eq_getElem (by simpa using hc), List.getElem_map]
    by_cases hm : r ∈ combs[c] <;> simp [hm]
  rw [List.filter_congr hentry, range_three]
  exact filter_mem_of_sublist (by decide) hsub

/-- C4.  On its contract domain — 9 column counts, each in `[1,3]`,
summing to 15 — `_mask_for_ticket` always succeeds (its
`"Failed to build row mask for ticket"` branch is unreachable) and
returns a 3×9 0/1 mask with row sums `[5,5,5]` and column sums equal to
the input vector. -/
theorem claim_C4 (cs : List ℕ) (h9 : cs.length = 9)
    (hb : ∀ x ∈ cs, 1 ≤ x ∧ x ≤ 3) (h15 : cs.sum = 15) :
    ∃ m, _mask_for_ticket cs = .ok m ∧ m.length = 3 ∧
      (∀ row ∈ m, row.length = 9 ∧ ∀ x ∈ row, x = 0 ∨ x = 1) ∧
      m.map List.sum = [5, 5, 5] ∧
      (List.range 9).map (fun c => (m.map fun row => row.getD c 0).sum) = cs := by
  obtain ⟨combs, hcombs, hok, hf₂, huses⟩ := mask_for_ticket_spec h9 hb h15
  have hclen : combs.length = 9 := by rw [hf₂.length_eq, h9]
  refine ⟨maskOfCombs combs, hok, by simp [maskOfCombs], ?_, ?_, ?_⟩
  · intro row hrow
    obtain ⟨r, hr, rfl⟩ := List.mem_map.mp hrow
    constructor
    · simp [hclen]
    · intro x hx
      obtain ⟨cb, _, rfl⟩ := List.mem_map.mp hx
      by_cases hm : r ∈ cb <;> simp [hm]
  · rw [maskOfCombs, List.map_map, range_three]
    simp only [List.map_cons, List.map_nil, Function.comp]
    rw [sum_map_ite, sum_map_ite, sum_map_ite,
      huses 0 (by omega), huses 1 (by omega), huses 2 (by omega)]
  · refine List.ext_getElem (by simp [h9]) ?_
    intro c h₁ h₂
    have hc9 : c < 9 := by simpa using h₁
    have hcc : c < combs.length := by omega
    rw [List.getElem_map, List.getElem_range]
    obtain ⟨hsub, hlen⟩ := forall₂_get hf₂ c hcc (by omega)
    have hcd : combs.getD c [] = combs[c] := getD_eq_getElem' hcc []
    have hrows : (maskOfCombs combs).map (fun row => row.getD c 0)
        = (List.range 3).map fun r => if r ∈ combs[c] then 1 else 0 := by
      rw [maskOfCombs, List.map_map]
      refine List.map_congr_left ?_
      intro r _
      simp only [Function.comp]
      rw [getD_eq_getElem (by simpa [List.length_map] using hcc), List.getElem_map]
    rw [hrows, range_three, sum_map_indicator combs[c] [0, 1, 2]]
    rw [← hcd] at hsub ⊢
    rw [filter_mem_of_sublist (by decide) hsub]
    rw [hcd]
    exact hlen

end Housie

namespace Housie

/-- C4, witness: the spec's concrete scenario `[2,2,2,2,2,1,1,1,2]`. -/
theorem claim_C4_witness :
    ∃ m, _mask_for_ticket [2, 2, 2, 2, 2, 1, 1, 1, 2] = .ok m ∧ m.length = 3 ∧
      (∀ row ∈ m, row.length = 9 ∧ ∀ x ∈ row, x = 0 ∨ x = 1) ∧
      m.map List.sum = [5, 5, 5] ∧
      (List.range 9).map (fun c => (m.map fun row => row.getD c 0).sum)
        = [2, 2, 2, 2, 2, 1, 1, 1, 2] :=
  claim_C4 [2, 2, 2, 2, 2, 1, 1, 1, 2] (by decide) (by decide) (by decide)

/-- C5.  Whatever permutations the three candidate-list shuffles produced,
any matrix `A` that `_alloc_strip_col_counts` returns is 6×9 with every
entry in `[1,3]`, every row (ticket) summing to 15, and column `c`
summing to `STRIP_COL_TOTALS[c] = [9,10,10,10,10,10,10,10,11][c]`. -/
theorem claim_C5 {cand9 cand10 cand11 : List (List ℕ)}
    (h9 : cand9.Perm (compositions_of_total 9 6))
    (h10 : cand10.Perm (compositions_of_total 10 6))
    (h11 : cand11.Perm (compositions_of_total 11 6))
    (A : List (List ℕ)) (h : _alloc_strip_col_counts cand9 cand10 cand11 = .ok A) :
    A.length = 6 ∧
    (∀ row ∈ A, row.length = 9 ∧ (∀ x ∈ row, 1 ≤ x ∧ x ≤ 3) ∧ row.sum = 15) ∧
    ∀ c < 9, colSumAt A c = STRIP_COL_TOTALS.getD c 0 := by
  obtain ⟨A', hA', h1, h2, h3⟩ := alloc_spec h9 h10 h11
  rw [h] at hA'
  obtain rfl : A = A' := by
    injection hA'
  exact ⟨h1, h2, h3⟩

/-- The allocation the backtracker finds when the candidate lists are
unshuffled (used as a concrete witness input). -/
def demoAllocResult : List (List ℕ) :=
  (_alloc_strip_col_counts (compositions_of_total 9 6) (compositions_of_total 10 6)
    (compositions_of_total 11 6)).toOption.getD []

set_option maxRecDepth 100000 in
set_option maxHeartbeats 4000000 in
lemma demoAllocResult_eq :
    _alloc_strip_col_counts (compositions_of_total 9 6) (compositions_of_total 10 6)
      (compositions_of_total 11 6) = .ok demoAllocResult := by
  -- HEAVYEVAL
  rfl

/-- C5, witness: the allocator run on the unshuffled candidate lists. -/
theorem claim_C5_witness :
    _alloc_strip_col_counts (compositions_of_total 9 6) (compositions_of_total 10 6)
        (compositions_of_total 11 6) = .ok demoAllocResult ∧
    demoAllocResult.length = 6 ∧
    (∀ row ∈ demoAllocResult, row.length = 9 ∧ (∀ x ∈ row, 1 ≤ x ∧ x ≤ 3) ∧ row.sum = 15) ∧
    (∀ c < 9, colSumAt demoAllocResult c = STRIP_COL_TOTALS.getD c 0) :=
  ⟨demoAllocResult_eq,
    claim_C5 (List.Perm.refl _) (List.Perm.refl _) (List.Perm.refl _)
      demoAllocResult demoAllocResult_eq⟩

end Housie

namespace Housie

/-! ### Correctness of the fill phase of `generate_full_strip` -/

/-- How the fill loop writes one ticket column: the sorted slice `sl`
is dealt to the chosen rows (`cb`, ascending) in order, and read back out
in row order it is `sl` again. -/
lemma filterMap_sel {cb : List ℕ} (hsub : cb.Sublist [0, 1, 2]) {sl : List ℕ}
    (hlen : sl.length = cb.length) (hpos : ∀ n ∈ sl, 1 ≤ n) :
    ([0, 1, 2].filterMap fun r =>
        (match cb.findIdx? (· == r) with
          | some i => sl.get? i
          | none => none).bind fun n => if n = 0 then none else some n) = sl := by
  rcases sublist_012 hsub with rfl | rfl | rfl | rfl | rfl | rfl | rfl | rfl
  · obtain rfl : sl = [] := List.length_eq_zero.mp hlen
    rfl
  · obtain ⟨a, rfl⟩ : ∃ a, sl = [a] := by
      match sl, hlen with
      | [a], _ => exact ⟨a, rfl⟩
    have ha : a ≠ 0 := by have := hpos a (by simp); omega
    simp [List.filterMap_cons, ha]
  · obtain ⟨a, rfl⟩ : ∃ a, sl = [a] := by
      match sl, hlen with
      | [a], _ => exact ⟨a, rfl⟩
    have ha : a ≠ 0 := by have := hpos a (by simp); omega
    simp [List.filterMap_cons, ha]
  · obtain ⟨a, b, rfl⟩ : ∃ a b, sl = [a, b] := by
      match sl, hlen with
      | [a, b], _ => exact ⟨a, b, rfl⟩
    have ha : a ≠ 0 := by have := hpos a (by simp); omega
    have hb : b ≠ 0 := by have := hpos b (by simp); omega
    simp [List.filterMap_cons, ha, hb]
  · obtain ⟨a, rfl⟩ : ∃ a, sl = [a] := by
      match sl, hlen with
      | [a], _ => exact ⟨a, rfl⟩
    have ha : a ≠ 0 := by have := hpos a (by simp); omega
    simp [List.filterMap_cons, ha]
  · obtain ⟨a, b, rfl⟩ : ∃ a b, sl = [a, b] := by
      match sl, hlen with
      | [a, b], _ => exact ⟨a, b, rfl⟩
    have ha : a ≠ 0 := by have := hpos a (by simp); omega
    have hb : b ≠ 0 := by have := hpos b (by simp); omega
    simp [List.filterMap_cons, ha, hb]
  · obtain ⟨a, b, rfl⟩ : ∃ a b, sl = [a, b] := by
      match sl, hlen with
      | [a, b], _ => exact ⟨a, b, rfl⟩
    have ha : a ≠ 0 := by have := hpos a (by simp); omega
    have hb : b ≠ 0 := by have := hpos b (by simp); omega
    simp [List.filterMap_cons, ha, hb]
  · obtain ⟨a, b, c, rfl⟩ : ∃ a b c, sl = [a, b, c] := by
      match sl, hlen with
      | [a, b, c], _ => exact ⟨a, b, c, rfl⟩
    have ha : a ≠ 0 := by have := hpos a (by simp); omega
    have hb : b ≠ 0 := by have := hpos b (by simp); omega
    have hc : c ≠ 0 := by have := hpos c (by simp); omega
    simp [List.filterMap_cons, ha, hb, hc]

end Housie

namespace Housie

lemma truthy_sel {cb sl : List ℕ} (hlen : sl.length = cb.length)
    (hpos : ∀ n ∈ sl, 1 ≤ n) (r : ℕ) :
    truthy (match cb.findIdx? (· == r) with
      | some i => sl.get? i
      | none => none) = decide (r ∈ cb) := by
  cases hfi : cb.findIdx? (· == r) with
  | none =>
    have hall := List.findIdx?_eq_none_iff.mp hfi
    have hr : r ∉ cb := by
      intro hr
      have := hall r hr
      simp at this
    simp [truthy, hr]
  | some i =>
    obtain ⟨hi, hpi, _⟩ := List.findIdx?_eq_some_iff_getElem.mp hfi
    have hmem : r ∈ cb := by
      have : cb[i] = r := by simpa using hpi
      rw [← this]
      exact List.getElem_mem hi
    have hi' : i < sl.length := by omega
    have hv := hpos sl[i] (List.getElem_mem hi')
    show truthy (sl.get? i) = decide (r ∈ cb)
    rw [List.get?_eq_getElem?, List.getElem?_eq_getElem hi']
    simp only [truthy]
    rw [decide_eq_true hmem]
    simpa using by omega

lemma map_getD_range_gen {α : Type} (v : List α) (d : α) :
    (List.range v.length).map (fun i => v.getD i d) = v := by
  induction v with
  | nil => rfl
  | cons a t ih =>
    rw [List.length_cons, List.range_succ_eq_map, List.map_cons, List.map_map]
    show a :: (List.range t.length).map (fun i => t.getD i d) = a :: t
    rw [ih]

lemma filter_getD_range {α : Type} (L : List α) (d : α) (p : α → Bool) :
    ((List.range L.length).filter fun i => p (L.getD i d)).length
      = (L.filter p).length := by
  have h2 : ((List.range L.length).map fun i => L.getD i d).filter p
      = ((List.range L.length).filter fun i => p (L.getD i d)).map fun i => L.getD i d := by
    rw [@List.filter_map _ _ p (fun i => L.getD i d) (List.range L.length)]
    rfl
  have h3 := congrArg List.length h2
  rw [List.length_map] at h3
  rw [← h3, map_getD_range_gen]

lemma getCell_fillTicket (pools : List (List ℕ)) (consumed cs : List ℕ)
    (mask : List (List ℕ)) {r c : ℕ} (hr : r < 3) (hc : c < 9) :
    getCell (fillTicket pools consumed cs mask) r c
      = cellVal pools consumed cs mask r c := by
  rw [getCell, fillTicket]
  rw [getD_eq_getElem' (by simpa using hr) [], List.getElem_map]
  rw [getD_eq_getElem' (by simpa using hc) none, List.getElem_map]
  simp only [List.getElem_range]

/-- What one column of a filled ticket reads back as. -/
lemma colVals_fillTicket (pools : List (List ℕ)) (consumed cs : List ℕ)
    (mask combs : List (List ℕ))
    (hmask : ∀ c < 9, rowsAt mask c = combs.getD c []) {c : ℕ} (hc : c < 9)
    (hsub : (combs.getD c []).Sublist [0, 1, 2])
    (hlen : (pySorted (((pools.getD c []).drop (consumed.getD c 0)).take (cs.getD c 0))).length
      = (combs.getD c []).length)
    (hpos : ∀ n ∈ pools.getD c [], 1 ≤ n) :
    colVals (fillTicket pools consumed cs mask) c
      = pySorted (((pools.getD c []).drop (consumed.getD c 0)).take (cs.getD c 0)) := by
  have hstep : colVals (fillTicket pools consumed cs mask) c
      = [0, 1, 2].filterMap fun r =>
          (match (combs.getD c []).findIdx? (· == r) with
            | some i =>
              (pySorted (((pools.getD c []).drop (consumed.getD c 0)).take (cs.getD c 0))).get? i
            | none => none).bind fun n => if n = 0 then none else some n := by
    rw [colVals, range_three]
    refine List.filterMap_congr ?_
    intro r hr
    have hr3 : r < 3 := by
      simp only [List.mem_cons, List.not_mem_nil, or_false] at hr
      rcases hr with rfl | rfl | rfl <;> omega
    rw [getCell_fillTicket pools consumed cs mask hr3 hc]
    simp only [cellVal, hmask c hc]
  rw [hstep]
  refine filterMap_sel hsub hlen ?_
  intro n hn
  have hn' : n ∈ ((pools.getD c []).drop (consumed.getD c 0)).take (cs.getD c 0) :=
    ((List.perm_insertionSort _ _).mem_iff).mp hn
  exact hpos n (List.drop_subset _ _ (List.take_subset _ _ hn'))

end Housie

namespace Housie

/-- Full specification of one filled ticket: 3×9 shape, every row holds
exactly 5 truthy cells, and each column reads back as the sorted slice of
its pool. -/
lemma fillTicket_spec (pools : List (List ℕ)) (consumed cs : List ℕ)
    (mask combs : List (List ℕ))
    (hmask : ∀ c < 9, rowsAt mask c = combs.getD c [])
    (hf₂ : List.Forall₂ (fun cb k => cb.Sublist [0, 1, 2] ∧ cb.length = k) combs cs)
    (huses : ∀ r < 3, rowUses combs r = 5)
    (h9 : cs.length = 9)
    (hslice : ∀ c < 9,
      (((pools.getD c []).drop (consumed.getD c 0)).take (cs.getD c 0)).length = cs.getD c 0)
    (hpos : ∀ c < 9, ∀ n ∈ pools.getD c [], 1 ≤ n) :
    (fillTicket pools consumed cs mask).length = 3 ∧
    (∀ row ∈ fillTicket pools consumed cs mask, row.length = 9) ∧
    (∀ c < 9, colVals (fillTicket pools consumed cs mask) c
        = pySorted (((pools.getD c []).drop (consumed.getD c 0)).take (cs.getD c 0))) ∧
    (∀ row ∈ fillTicket pools consumed cs mask, rowNumCount row = 5) := by
  have hclen : combs.length = 9 := by rw [hf₂.length_eq, h9]
  have hidx : ∀ c, c < 9 → (combs.getD c []).Sublist [0, 1, 2] ∧
      (combs.getD c []).length = cs.getD c 0 := by
    intro c hc
    have h := forall₂_get hf₂ c (by omega) (by omega)
    rw [getD_eq_getElem' (by omega : c < combs.length) [],
      getD_eq_getElem (by omega : c < cs.length)]
    exact h
  have hslen : ∀ c, c < 9 →
      (pySorted (((pools.getD c []).drop (consumed.getD c 0)).take (cs.getD c 0))).length
        = (combs.getD c []).length := by
    intro c hc
    rw [pySorted, List.length_insertionSort, hslice c hc, (hidx c hc).2]
  refine ⟨by simp [fillTicket], ?_, ?_, ?_⟩
  · intro row hrow
    obtain ⟨r, _, rfl⟩ := List.mem_map.mp hrow
    simp
  · intro c hc
    exact colVals_fillTicket pools consumed cs mask combs hmask hc (hidx c hc).1
      (hslen c hc) (hpos c hc)
  · intro row hrow
    obtain ⟨r, hr, rfl⟩ := List.mem_map.mp hrow
    have hr3 : r < 3 := List.mem_range.mp hr
    rw [rowNumCount]
    rw [List.filter_map]
    rw [List.length_map]
    have hcong : ∀ c ∈ List.range 9,
        ((truthy ∘ fun c => cellVal pools consumed cs mask r c) c)
          = decide (r ∈ combs.getD c []) := by
      intro c hcm
      have hc : c < 9 := List.mem_range.mp hcm
      simp only [Function.comp]
      rw [cellVal, hmask c hc]
      refine truthy_sel (hslen c hc) ?_ r
      intro n hn
      have hn' : n ∈ ((pools.getD c []).drop (consumed.getD c 0)).take (cs.getD c 0) :=
        ((List.perm_insertionSort _ _).mem_iff).mp hn
      exact hpos c hc n (List.drop_subset _ _ (List.take_subset _ _ hn'))
    rw [List.filter_congr hcong]
    have h9' : (9 : ℕ) = combs.length := hclen.symm
    rw [h9']
    rw [filter_getD_range combs [] (fun cb => decide (r ∈ cb))]
    exact huses r hr3

end Housie

namespace Housie

lemma colSumAt_cons (row : List ℕ) (rows : List (List ℕ)) (c : ℕ) :
    colSumAt (row :: rows) c = row.getD c 0 + colSumAt rows c := by
  simp [colSumAt]

/-- Full specification of the ticket-building loop: it produces one
well-shaped ticket per allocation row, each row of each ticket holding 5
numbers, each ticket column reading back as a sorted slice of its pool,
and the tickets of each column jointly consuming exactly the next
`colSumAt rows c` elements of pool `c`. -/
lemma buildTickets_spec (pools : List (List ℕ))
    (hpos : ∀ c < 9, ∀ n ∈ pools.getD c [], 1 ≤ n) :
    ∀ (rows : List (List ℕ)) (consumed : List ℕ) (ts : List Ticket),
    (∀ row ∈ rows, row.length = 9 ∧ (∀ x ∈ row, 1 ≤ x ∧ x ≤ 3) ∧ row.sum = 15) →
    consumed.length = 9 →
    (∀ c < 9, consumed.getD c 0 + colSumAt rows c ≤ (pools.getD c []).length) →
    buildTickets pools rows consumed = .ok ts →
    ts.length = rows.length ∧
    (∀ t ∈ ts, t.length = 3 ∧ (∀ row' ∈ t, row'.length = 9) ∧
      (∀ row' ∈ t, rowNumCount row' = 5)) ∧
    (List.Forall₂ (fun t row => ∀ c < 9, (colVals t c).length = row.getD c 0 ∧
        colVals t c = (colVals t c).insertionSort (· ≤ ·) ∧
        (∀ n ∈ colVals t c, n ∈ pools.getD c [])) ts rows) ∧
    (∀ c < 9, (ts.flatMap fun t => colVals t c).Perm
      (((pools.getD c []).drop (consumed.getD c 0)).take (colSumAt rows c))) := by
  intro rows
  induction rows with
  | nil =>
    intro consumed ts _ _ _ h
    obtain rfl : ts = [] := by
      rw [buildTickets] at h
      simpa using h.symm
    refine ⟨rfl, by simp, .nil, ?_⟩
    intro c _
    simp [colSumAt]
  | cons cs rest ih =>
    intro consumed ts hrows hconsl havail h
    obtain ⟨hcs9, hcsb, hcs15⟩ := hrows cs (by simp)
    obtain ⟨combs, _, hok, hf₂, huses⟩ := mask_for_ticket_spec hcs9 hcsb hcs15
    have hclen : combs.length = 9 := by rw [hf₂.length_eq, hcs9]
    rw [buildTickets, hok] at h
    cases hrec : buildTickets pools rest (List.zipWith (· + ·) consumed cs) with
    | error e =>
      rw [hrec] at h
      cases h
    | ok ts' =>
      rw [hrec] at h
      obtain rfl : fillTicket pools consumed cs (maskOfCombs combs) :: ts' = ts := by
        simpa using h
      have hmask : ∀ c < 9, rowsAt (maskOfCombs combs) c = combs.getD c [] := by
        intro c hc
        have hcc : c < combs.length := by omega
        have hsub' := (forall₂_get hf₂ c hcc (show c < cs.length by omega)).1
        have hgd : combs.getD c [] = combs[c] := getD_eq_getElem' hcc []
        refine rowsAt_maskOfCombs hcc ?_
        rw [hgd]
        exact hsub'
      have hslice : ∀ c < 9,
          (((pools.getD c []).drop (consumed.getD c 0)).take (cs.getD c 0)).length
            = cs.getD c 0 := by
        intro c hc
        have hav := havail c hc
        rw [colSumAt_cons] at hav
        rw [List.length_take, List.length_drop]
        omega
      obtain ⟨hshape3, hshape9, hcols, hrowcnt⟩ :=
        fillTicket_spec pools consumed cs (maskOfCombs combs) combs hmask hf₂ huses hcs9
          hslice hpos
      have hcons' : (List.zipWith (· + ·) consumed cs).length = 9 := by
        rw [List.length_zipWith]
        omega
      have hgetD' : ∀ c < 9, (List.zipWith (· + ·) consumed cs).getD c 0
          = consumed.getD c 0 + cs.getD c 0 := by
        intro c hc
        exact getD_zipWith_add (by omega) (by omega)
      have havail' : ∀ c < 9, (List.zipWith (· + ·) consumed cs).getD c 0
          + colSumAt rest c ≤ (pools.getD c []).length := by
        intro c hc
        rw [hgetD' c hc]
        have := havail c hc
        rw [colSumAt_cons] at this
        omega
      obtain ⟨hlen', hshape', hf₂', hperm'⟩ := ih _ ts'
        (fun row hrow => hrows row (by simp [hrow])) hcons' havail' hrec
      refine ⟨by simp [hlen'], ?_, ?_, ?_⟩
      · intro t ht
        rcases List.mem_cons.mp ht with rfl | ht'
        · exact ⟨hshape3, hshape9, hrowcnt⟩
        · exact hshape' t ht'
      · refine List.Forall₂.cons ?_ hf₂'
        intro c hc
        have hcv := hcols c hc
        refine ⟨?_, ?_, ?_⟩
        · rw [hcv, pySorted, List.length_insertionSort, hslice c hc]
        · rw [hcv]
          have hsorted : List.Sorted (· ≤ ·) (pySorted
              (((pools.getD c []).drop (consumed.getD c 0)).take (cs.getD c 0))) := by
            refine List.sorted_insertionSort _ _
          exact (hsorted.insertionSort_eq).symm
        · intro n hn
          rw [hcv] at hn
          have hn' : n ∈ ((pools.getD c []).drop (consumed.getD c 0)).take (cs.getD c 0) :=
            ((List.perm_insertionSort _ _).mem_iff).mp hn
          exact List.drop_subset _ _ (List.take_subset _ _ hn')
      · intro c hc
        rw [List.flatMap_cons, colSumAt_cons, List.take_add]
        refine List.Perm.append ?_ ?_
        · rw [hcols c hc]
          exact List.perm_insertionSort _ _
        · have hp := hperm' c hc
          rw [hgetD' c hc] at hp
          rw [List.drop_drop]
          exact hp

end Housie

namespace Housie

lemma flatMap_congr_perm {α β : Type} {l : List α} {f g : α → List β}
    (h : ∀ a ∈ l, (f a).Perm (g a)) : (l.flatMap f).Perm (l.flatMap g) := by
  induction l with
  | nil => simp
  | cons a l' ih =>
    rw [List.flatMap_cons, List.flatMap_cons]
    exact (h a (by simp)).append (ih fun a ha => h a (by simp [ha]))

lemma perm_append_swap {β : Type} (w x y z : List β) :
    ((w ++ x) ++ (y ++ z)).Perm ((w ++ y) ++ (x ++ z)) := by
  have h : (x ++ (y ++ z)).Perm (y ++ (x ++ z)) := by
    rw [← List.append_assoc, ← List.append_assoc]
    exact List.perm_append_comm.append (List.Perm.refl z)
  rw [List.append_assoc, List.append_assoc]
  exact List.Perm.append_left w h

lemma flatMap_append_perm {α β : Type} (l : List α) (f g : α → List β) :
    (l.flatMap fun a => f a ++ g a).Perm (l.flatMap f ++ l.flatMap g) := by
  induction l with
  | nil => simp
  | cons a l' ih =>
    rw [List.flatMap_cons, List.flatMap_cons, List.flatMap_cons]
    refine List.Perm.trans (ih.append_left (f a ++ g a)) ?_
    exact perm_append_swap (f a) (g a) (l'.flatMap f) (l'.flatMap g)

lemma flatMap_comm_perm {α β γ : Type} (ts : List α) (cs : List β) (f : α → β → List γ) :
    (ts.flatMap fun t => cs.flatMap fun c => f t c).Perm
      (cs.flatMap fun c => ts.flatMap fun t => f t c) := by
  induction ts with
  | nil => simp
  | cons t ts' ih =>
    rw [List.flatMap_cons]
    have h1 : (cs.flatMap fun c => f t c ++ ts'.flatMap fun t' => f t' c).Perm
        ((cs.flatMap fun c => f t c) ++ cs.flatMap fun c => ts'.flatMap fun t' => f t' c) :=
      flatMap_append_perm cs _ _
    refine List.Perm.trans ?_ h1.symm
    exact List.Perm.append_left _ ih

end Housie

namespace Housie

lemma rangeList_facts : ∀ c < 9,
    (∀ n ∈ rangeList c, _in_col_range c n = true ∧ 1 ≤ n) ∧ (rangeList c).Nodup ∧
    (rangeList c).length = STRIP_COL_TOTALS.getD c 0 := by
  intro c hc
  interval_cases c <;> exact ⟨by decide, by decide, rfl⟩

lemma rangeAll : (List.range 9).flatMap rangeList = List.range' 1 90 := by decide

lemma poolsOf_spec {ar : AttemptRand} (hwf : WFAttempt ar) :
    ∀ c < 9, ((poolsOf ar).getD c []).Perm (rangeList c) := by
  obtain ⟨_, _, _, hlen, hperm⟩ := hwf
  intro c hc
  have hinst : (poolsOf ar).getD c []
      = (ar.shuffledRanges.getD c []).take (STRIP_COL_TOTALS.getD c 0) := by
    rw [poolsOf, getD_eq_getElem' (by simpa using hc) [], List.getElem_map,
      List.getElem_range]
  rw [hinst]
  have hlenr : (ar.shuffledRanges.getD c []).length = STRIP_COL_TOTALS.getD c 0 := by
    rw [(hperm c hc).length_eq]
    exact (rangeList_facts c hc).2.2
  rw [← hlenr, List.take_length]
  exact hperm c hc

/-- The central construction theorem: whatever the random source did, a
strip assembled by one attempt of `generate_full_strip` from a
successful allocation satisfies every invariant `validate_strip`
checks. -/
theorem builtStrip_valid {ar : AttemptRand} (hwf : WFAttempt ar) {A : List (List ℕ)}
    {ts : Strip}
    (hA : _alloc_strip_col_counts ar.cand9 ar.cand10 ar.cand11 = .ok A)
    (hb : buildTickets (poolsOf ar) A (List.replicate 9 0) = .ok ts) :
    ValidStrip ts := by
  have hpool := poolsOf_spec hwf
  obtain ⟨hp9, hp10, hp11, _, _⟩ := hwf
  obtain ⟨A', hA', hA6, hArows, hAcols⟩ := alloc_spec hp9 hp10 hp11
  rw [hA] at hA'
  obtain rfl : A = A' := by injection hA'
  have hposn : ∀ c < 9, ∀ n ∈ (poolsOf ar).getD c [], 1 ≤ n := by
    intro c hc n hn
    exact ((rangeList_facts c hc).1 n ((hpool c hc).mem_iff.mp hn)).2
  have hrange : ∀ c < 9, ∀ n ∈ (poolsOf ar).getD c [], _in_col_range c n = true := by
    intro c hc n hn
    exact ((rangeList_facts c hc).1 n ((hpool c hc).mem_iff.mp hn)).1
  have hpoollen : ∀ c < 9, ((poolsOf ar).getD c []).length = STRIP_COL_TOTALS.getD c 0 := by
    intro c hc
    rw [(hpool c hc).length_eq]
    exact (rangeList_facts c hc).2.2
  have hrepl0 : ∀ c < 9, (List.replicate 9 (0 : ℕ)).getD c 0 = 0 := by
    intro c hc
    interval_cases c <;> rfl
  have havail : ∀ c < 9, (List.replicate 9 (0 : ℕ)).getD c 0 + colSumAt A c
      ≤ ((poolsOf ar).getD c []).length := by
    intro c hc
    rw [hrepl0 c hc, hAcols c hc, hpoollen c hc]
    omega
  obtain ⟨hts_len, hts_shape, hts_cols, hts_perm⟩ :=
    buildTickets_spec (poolsOf ar) hposn A (List.replicate 9 0) ts hArows (by simp)
      havail hb
  have hperm2 : ∀ c < 9, (ts.flatMap fun t => colVals t c).Perm ((poolsOf ar).getD c []) := by
    intro c hc
    have h := hts_perm c hc
    rw [hrepl0 c hc, List.drop_zero, hAcols c hc, ← hpoollen c hc, List.take_length] at h
    exact h
  refine ⟨by rw [hts_len, hA6], ?_, ?_, ?_, ?_⟩
  · -- every ticket is OK
    intro t ht
    obtain ⟨h3, h9r, hcnt⟩ := hts_shape t ht
    obtain ⟨row, hrowA, hfacts⟩ := forall₂_mem_left hts_cols t ht
    obtain ⟨hrl9, hrb, _⟩ := hArows row hrowA
    refine ⟨h3, ?_, hcnt, ?_⟩
    · intro r hr
      have hr' : r < t.length := by omega
      refine h9r _ ?_
      rw [getD_eq_getElem' hr' []]
      exact List.getElem_mem hr'
    · intro c hc
      obtain ⟨hlenc, hsortc, hmemc⟩ := hfacts c hc
      have hbnd : 1 ≤ row.getD c 0 ∧ row.getD c 0 ≤ 3 := by
        rw [getD_eq_getElem (by omega : c < row.length)]
        exact hrb _ (List.getElem_mem _)
      exact ⟨by omega, by omega, fun n hn => hrange c hc n (hmemc n hn), hsortc⟩
  · -- global uniqueness
    have hPerm : (stripVals ts).Perm (List.range' 1 90) := by
      have h1 : (stripVals ts).Perm
          ((List.range 9).flatMap fun c => ts.flatMap fun t => colVals t c) :=
        flatMap_comm_perm ts (List.range 9) fun t c => colVals t c
      have h2 : ((List.range 9).flatMap fun c => ts.flatMap fun t => colVals t c).Perm
          ((List.range 9).flatMap fun c => (poolsOf ar).getD c []) :=
        flatMap_congr_perm fun c hc => hperm2 c (List.mem_range.mp hc)
      have h3 : ((List.range 9).flatMap fun c => (poolsOf ar).getD c []).Perm
          ((List.range 9).flatMap rangeList) :=
        flatMap_congr_perm fun c hc => hpool c (List.mem_range.mp hc)
      rw [rangeAll] at h3
      exact (h1.trans h2).trans h3
    exact hPerm.symm.nodup (List.nodup_range' 1 90)
  · -- every number 1..90 exactly once
    have hPerm : (stripVals ts).Perm (List.range' 1 90) := by
      have h1 : (stripVals ts).Perm
          ((List.range 9).flatMap fun c => ts.flatMap fun t => colVals t c) :=
        flatMap_comm_perm ts (List.range 9) fun t c => colVals t c
      have h2 : ((List.range 9).flatMap fun c => ts.flatMap fun t => colVals t c).Perm
          ((List.range 9).flatMap fun c => (poolsOf ar).getD c []) :=
        flatMap_congr_perm fun c hc => hperm2 c (List.mem_range.mp hc)
      have h3 : ((List.range 9).flatMap fun c => (poolsOf ar).getD c []).Perm
          ((List.range 9).flatMap rangeList) :=
        flatMap_congr_perm fun c hc => hpool c (List.mem_range.mp hc)
      rw [rangeAll] at h3
      exact (h1.trans h2).trans h3
    intro n
    rw [hPerm.mem_iff, List.mem_range'_1]
    omega
  · -- column totals
    intro c hc
    have hlen := (hperm2 c hc).length_eq
    rw [List.length_flatMap] at hlen
    rw [hpoollen c hc] at hlen
    rw [colTotal, ← hlen]
    rfl

end Housie

namespace Housie

/-- `buildTickets` never raises when every allocation row meets
`_mask_for_ticket`'s contract (the only raise inside it). -/
lemma buildTickets_total (pools : List (List ℕ)) :
    ∀ (rows : List (List ℕ)),
    (∀ row ∈ rows, row.length = 9 ∧ (∀ x ∈ row, 1 ≤ x ∧ x ≤ 3) ∧ row.sum = 15) →
    ∀ (consumed : List ℕ), ∃ ts, buildTickets pools rows consumed = .ok ts := by
  intro rows
  induction rows with
  | nil => exact fun _ _ => ⟨[], rfl⟩
  | cons row rest ih =>
    intro hrows consumed
    obtain ⟨h9, hb, h15⟩ := hrows row (List.mem_cons_self row rest)
    obtain ⟨combs, -, hmk, -, -⟩ := mask_for_ticket_spec h9 hb h15
    obtain ⟨ts, hts⟩ := ih (fun r hr => hrows r (List.mem_cons_of_mem row hr))
      (List.zipWith (· + ·) consumed row)
    refine ⟨fillTicket pools consumed row (maskOfCombs combs) :: ts, ?_⟩
    simp only [buildTickets, hmk, hts]

/-- What one attempt of `generate_full_strip` builds, if it gets as far
as a whole strip: `None` marks an attempt whose allocation or fill
raised. -/
def attemptStrip (rand : ℕ → AttemptRand) (i : ℕ) : Option Strip :=
  match _alloc_strip_col_counts (rand i).cand9 (rand i).cand10 (rand i).cand11 with
  | .error _ => none
  | .ok alloc =>
    match buildTickets (poolsOf (rand i)) alloc (List.replicate 9 0) with
    | .error _ => none
    | .ok strip => some strip

/-- Under true-permutation randomness every attempt completes and its
strip satisfies every validation invariant. -/
lemma attempt_spec {rand : ℕ → AttemptRand} (hwf : WFRand rand) (i : ℕ) :
    ∃ s, attemptStrip rand i = some s ∧ ValidStrip s := by
  have hw := hwf i
  obtain ⟨h9, h10, h11, -, -⟩ := hw
  obtain ⟨A, hA, -, hArows, -⟩ := alloc_spec h9 h10 h11
  obtain ⟨ts, hts⟩ := buildTickets_total (poolsOf (rand i)) A hArows (List.replicate 9 0)
  refine ⟨ts, ?_, builtStrip_valid (hwf i) hA hts⟩
  simp only [attemptStrip, hA, hts]

/-- Loop invariant for `genLoop`: if the remembered strip (when present)
meets every validation invariant, so does whatever strip the loop
returns. -/
lemma genLoop_ok_valid {rand : ℕ → AttemptRand} (hwf : WFRand rand) (maxAttempts : ℕ) :
    ∀ (fuel : ℕ) (last : Option Strip) (msg : String),
    (∀ s, last = some s → ValidStrip s) →
    ∀ s, genLoop rand maxAttempts fuel last msg = .ok s → ValidStrip s := by
  intro fuel
  induction fuel with
  | zero =>
    intro last msg hlast s h
    cases last with
    | none => simp [genLoop] at h
    | some s' =>
      simp only [genLoop] at h
      injection h with h'
      exact h' ▸ hlast s' rfl
  | succ fuel ih =>
    intro last msg hlast s h
    have hw := hwf (maxAttempts - (fuel + 1))
    obtain ⟨h9, h10, h11, -, -⟩ := hw
    obtain ⟨A, hA, -, hArows, -⟩ := alloc_spec h9 h10 h11
    simp only [genLoop, hA] at h
    cases hbt : buildTickets (poolsOf (rand (maxAttempts - (fuel + 1)))) A
        (List.replicate 9 0) with
    | error e =>
      simp only [hbt] at h
      exact ih none e (fun s' hs' => by cases hs') s h
    | ok strip =>
      simp only [hbt] at h
      have hvalid := builtStrip_valid (hwf (maxAttempts - (fuel + 1))) hA hbt
      by_cases hcond :
          ((validate_strip strip).1 && strip.all _is_balanced_ticket) = true
      · rw [if_pos hcond] at h
        injection h with h'
        exact h' ▸ hvalid
      · rw [if_neg hcond] at h
        exact ih (some strip) (validate_strip strip).2
          (fun s' hs' => by injection hs' with h''; exact h'' ▸ hvalid) s h

/-- Exhaustive description of the loop's outcome under true-permutation
randomness: it always returns a strip, and that strip either passed the
balance test (early exit) or is the strip of the final attempt (the
fallback via `last_valid_strip`). -/
lemma genLoop_result {rand : ℕ → AttemptRand} (hwf : WFRand rand) (m : ℕ) :
    ∀ (fuel : ℕ), 1 ≤ fuel → fuel ≤ m → ∀ (last : Option Strip) (msg : String),
    ∃ s, genLoop rand m fuel last msg = .ok s ∧
      (s.all _is_balanced_ticket = true ∨ attemptStrip rand (m - 1) = some s) := by
  intro fuel
  induction fuel with
  | zero => intro h; exact absurd h (by omega)
  | succ fuel ih =>
    intro _ hle last msg
    have hw := hwf (m - (fuel + 1))
    obtain ⟨h9, h10, h11, -, -⟩ := hw
    obtain ⟨A, hA, -, hArows, -⟩ := alloc_spec h9 h10 h11
    obtain ⟨ts, hts⟩ := buildTickets_total (poolsOf (rand (m - (fuel + 1)))) A hArows
      (List.replicate 9 0)
    have hvalid := builtStrip_valid (hwf (m - (fuel + 1))) hA hts
    have hv1 : (validate_strip ts).1 = true := by
      rw [(validate_ok_iff ts).mpr hvalid]
    have hAttempt : attemptStrip rand (m - (fuel + 1)) = some ts := by
      simp only [attemptStrip, hA, hts]
    by_cases hbal : ts.all _is_balanced_ticket = true
    · refine ⟨ts, ?_, Or.inl hbal⟩
      simp only [genLoop, hA, hts]
      rw [if_pos (by simp [hv1, hbal])]
    · rcases Nat.eq_zero_or_pos fuel with rfl | hf
      · refine ⟨ts, ?_, Or.inr hAttempt⟩
        simp only [genLoop, hA, hts]
        rw [if_neg (by simp [hv1, hbal])]
      · obtain ⟨s, hok, hdisj⟩ := ih hf (by omega) (some ts) (validate_strip ts).2
        refine ⟨s, ?_, hdisj⟩
        simp only [genLoop, hA, hts]
        rw [if_neg (by simp [hv1, hbal])]
        exact hok

end Housie

namespace Housie

/-- C1. For every state of the random source (modeled by `WFRand`: every
shuffle really permutes its input) and every `max_attempts ≥ 1`, if
`generate_full_strip` returns a strip rather than raising, then
`validate_strip` on that strip reports pass, `(True, "ok")` — including
strips returned through the unbalanced-fallback path, because the code
remembers every built strip and every built strip validates. -/
theorem claim_C1 {rand : ℕ → AttemptRand} (hwf : WFRand rand) {n : ℕ} (hn : 1 ≤ n)
    {s : Strip} (h : generate_full_strip rand n = .ok s) :
    validate_strip s = (true, "ok") :=
  (validate_ok_iff s).mpr
    (genLoop_ok_valid hwf n n none "no_attempt" (fun _ hs => by cases hs) s h)

/-- The identity randomness: candidate composition lists left unshuffled
and each column range left in ascending order. -/
def demoAttempt : AttemptRand :=
  ⟨compositions_of_total 9 6, compositions_of_total 10 6, compositions_of_total 11 6,
    (List.range 9).map rangeList⟩

def demoRand : ℕ → AttemptRand := fun _ => demoAttempt

lemma demoRand_wf : WFRand demoRand := by
  intro i
  refine ⟨List.Perm.refl _, List.Perm.refl _, List.Perm.refl _, by rfl, ?_⟩
  intro c hc
  interval_cases c <;> exact List.Perm.refl _

/-- The strip one attempt of the generator builds from the identity
randomness. -/
def demoStrip : Strip := (generate_full_strip demoRand 1).toOption.getD []

set_option maxRecDepth 1000000 in
set_option maxHeartbeats 16000000 in
lemma demoStrip_eq : generate_full_strip demoRand 1 = .ok demoStrip := by
  -- HEAVYEVAL
  rfl

lemma demoStrip_valid : validate_strip demoStrip = (true, "ok") :=
  (validate_ok_iff demoStrip).mpr
    (genLoop_ok_valid demoRand_wf 1 1 none "no_attempt" (fun _ hs => by cases hs)
      demoStrip demoStrip_eq)

/-- C1, witness: the generator run on the identity randomness with one
attempt returns a strip that validates. -/
theorem claim_C1_witness :
    WFRand demoRand ∧ 1 ≤ 1 ∧ generate_full_strip demoRand 1 = .ok demoStrip ∧
    validate_strip demoStrip = (true, "ok") :=
  ⟨demoRand_wf, le_refl 1, demoStrip_eq, claim_C1 demoRand_wf (le_refl 1) demoStrip_eq⟩

/-- C2. Under true-permutation randomness every attempt survives to a
validated strip (first conjunct), so the exhaustion failure — raised
only when the loop ends holding no strip — never fires: the run returns
a strip that either passed the balance test (early exit) or is the final
attempt's strip, which is then the last validated strip of the whole
run (second conjunct). -/
theorem claim_C2 {rand : ℕ → AttemptRand} (hwf : WFRand rand) {n : ℕ} (hn : 1 ≤ n) :
    (∀ i < n, ∃ s, attemptStrip rand i = some s ∧ (validate_strip s).1 = true) ∧
    ∃ s, generate_full_strip rand n = .ok s ∧
      (s.all _is_balanced_ticket = true ∨ attemptStrip rand (n - 1) = some s) := by
  constructor
  · intro i _
    obtain ⟨s, hs, hvalid⟩ := attempt_spec hwf i
    exact ⟨s, hs, by rw [(validate_ok_iff s).mpr hvalid]⟩
  · exact genLoop_result hwf n n hn (le_refl n) none "no_attempt"

/-- C2, witness: the identity-randomness run with one attempt. -/
theorem claim_C2_witness :
    WFRand demoRand ∧ 1 ≤ 1 ∧
    ((∀ i < 1, ∃ s, attemptStrip demoRand i = some s ∧ (validate_strip s).1 = true) ∧
      ∃ s, generate_full_strip demoRand 1 = .ok s ∧
        (s.all _is_balanced_ticket = true ∨ attemptStrip demoRand (1 - 1) = some s)) :=
  ⟨demoRand_wf, le_refl 1, claim_C2 demoRand_wf (le_refl 1)⟩

/-- C8. With the random source made an explicit input,
`generate_full_strip` is a pure function of the source state and
`max_attempts`: two runs from equal source states and equal attempt
budgets return identical results — the same strip or the same failure. -/
theorem claim_C8 (rand₁ rand₂ : ℕ → AttemptRand) (n₁ n₂ : ℕ)
    (hr : ∀ i, rand₁ i = rand₂ i) (hn : n₁ = n₂) :
    generate_full_strip rand₁ n₁ = generate_full_strip rand₂ n₂ := by
  subst hn
  rw [funext hr]

/-- C8, witness. -/
theorem claim_C8_witness :
    (∀ i, demoRand i = demoRand i) ∧ (1 : ℕ) = 1 ∧
    generate_full_strip demoRand 1 = generate_full_strip demoRand 1 :=
  ⟨fun _ => rfl, rfl, claim_C8 demoRand demoRand 1 1 (fun _ => rfl) rfl⟩

end Housie

namespace Housie

lemma sublist_flatMap_of_mem {α β : Type} (f : α → List β) {l : List α} {a : α}
    (h : a ∈ l) : (f a).Sublist (l.flatMap f) := by
  induction l with
  | nil => cases h
  | cons b l' ih =>
    rw [List.flatMap_cons]
    rcases List.mem_cons.mp h with rfl | h'
    · exact List.sublist_append_left _ _
    · exact (ih h').trans (List.sublist_append_right _ _)

/-- C6. When `validate_strip` reports pass, every ticket column reads
strictly increasing from row 0 to row 2: the per-column sortedness check
(`col_vals != sorted(col_vals)`) gives `≤`, and the strip-wide
duplicate check makes the inequalities strict. -/
theorem claim_C6 {s : Strip} (h : (validate_strip s).1 = true) :
    ∀ t ∈ s, ∀ c < 9, (colVals t c).Pairwise (· < ·) := by
  obtain ⟨-, hT, hnodup, -, -⟩ := (validate_ok_iff s).mp (validate_of_fst_true h)
  intro t ht c hc
  have hsorted : (colVals t c).Pairwise (· ≤ ·) := by
    rw [((hT t ht).2.2.2 c hc).2.2.2]
    exact List.sorted_insertionSort _ _
  have hsub : (colVals t c).Sublist (stripVals s) :=
    (sublist_flatMap_of_mem (colVals t) (List.mem_range.mpr hc)).trans
      (sublist_flatMap_of_mem tVals ht)
  have hnd : (colVals t c).Nodup := hsub.nodup hnodup
  exact hsorted.imp₂ (fun a b hle hne => lt_of_le_of_ne hle hne) hnd

/-- C6, witness: the strip built from the identity randomness. -/
theorem claim_C6_witness :
    (validate_strip demoStrip).1 = true ∧
    ∀ t ∈ demoStrip, ∀ c < 9, (colVals t c).Pairwise (· < ·) :=
  ⟨by rw [demoStrip_valid], claim_C6 (by rw [demoStrip_valid])⟩

/-- C7. Every strip `generate_full_strip` returns spends the whole
column-0 pool: across the 6 tickets the column-0 values are exactly
1,…,9, each once (a permutation of `range' 1 9`). -/
theorem claim_C7 {rand : ℕ → AttemptRand} (hwf : WFRand rand) {n : ℕ} {s : Strip}
    (h : generate_full_strip rand n = .ok s) :
    (s.flatMap fun t => colVals t 0).Perm (List.range' 1 9) := by
  obtain ⟨-, hT, hnodup, -, hct⟩ :=
    genLoop_ok_valid hwf n n none "no_attempt" (fun _ hs => by cases hs) s h
  have hperm : (stripVals s).Perm
      ((List.range 9).flatMap fun c => s.flatMap fun t => colVals t c) :=
    flatMap_comm_perm s (List.range 9) fun t c => colVals t c
  have hnodup2 := hperm.nodup hnodup
  have hsubl : (s.flatMap fun t => colVals t 0).Sublist
      ((List.range 9).flatMap fun c => s.flatMap fun t => colVals t c) := by
    have h9 : List.range 9 = 0 :: [1, 2, 3, 4, 5, 6, 7, 8] := by decide
    rw [h9, List.flatMap_cons]
    exact List.sublist_append_left _ _
  have hnd : (s.flatMap fun t => colVals t 0).Nodup := hsubl.nodup hnodup2
  have hlen : (s.flatMap fun t => colVals t 0).length = 9 := by
    rw [List.length_flatMap]
    have h0 := hct 0 (by omega)
    rw [colTotal] at h0
    exact h0
  have hsubset : ∀ x ∈ s.flatMap fun t => colVals t 0, x ∈ List.range' 1 9 := by
    intro x hx
    obtain ⟨t, ht, hxc⟩ := List.mem_flatMap.mp hx
    have hr := ((hT t ht).2.2.2 0 (by omega)).2.2.1 x hxc
    have hr2 : (decide (1 ≤ x) && decide (x ≤ 9)) = true := hr
    simp only [Bool.and_eq_true, decide_eq_true_eq] at hr2
    rw [List.mem_range'_1]
    omega
  have hsp : List.Subperm (s.flatMap fun t => colVals t 0) (List.range' 1 9) :=
    List.Nodup.subperm hnd hsubset
  exact hsp.perm_of_length_le (by rw [hlen]; rfl)

/-- C7, witness: the strip built from the identity randomness. -/
theorem claim_C7_witness :
    WFRand demoRand ∧ generate_full_strip demoRand 1 = .ok demoStrip ∧
    (demoStrip.flatMap fun t => colVals t 0).Perm (List.range' 1 9) :=
  ⟨demoRand_wf, demoStrip_eq, claim_C7 demoRand_wf demoStrip_eq⟩

end Housie

namespace Housie

/-! ### The generator app.py actually serves (`generate_ticket_balanced`)

The randomness of one call — nine `random.shuffle`d column lists, the
`sorted(..., key=(..., random.random()))` row orders of the 2s and 1s
phases (each column index is processed at most once per phase, so one
order per column suffices), and `random.choice` — is externalized into
an `AppTicketRand` oracle; `WFApp` states what the `random` module
guarantees of it. -/

/-- `cols` of app.py before shuffling: `list(range(1,10))`, …,
`list(range(80,91))`. -/
def appColsInit : List (List ℕ) :=
  [List.range' 1 9, List.range' 10 10, List.range' 20 10, List.range' 30 10,
   List.range' 40 10, List.range' 50 10, List.range' 60 10, List.range' 70 10,
   List.range' 80 11]

/-- `order = [4,3,5,2,6,1,7,0,8]` (center-out). -/
def appOrder : List ℕ := [4, 3, 5, 2, 6, 1, 7, 0, 8]

/-- The `while extras > 0` loop distributing `15 - sum(counts)` extras
center-out, capped at 3 per column; fuel-bounded (the loop leaves the
state unchanged once `extras = 0`). -/
def countsLoop : ℕ → List ℕ → ℕ → ℕ → List ℕ
  | 0, counts, _, _ => counts
  | fuel + 1, counts, extras, i =>
    if extras = 0 then counts
    else
      let ci := appOrder.getD (i % 9) 0
      if counts.getD ci 0 < 3 then
        countsLoop fuel (counts.set ci (counts.getD ci 0 + 1)) (extras - 1) (i + 1)
      else countsLoop fuel counts extras (i + 1)

/-- The `counts` vector of `generate_ticket_balanced`: `[1]*9` plus the
distributed extras.  No randomness reaches this computation. -/
def appCounts : List ℕ :=
  countsLoop 20 (List.replicate 9 1) (15 - (List.replicate 9 1).sum) 0

/-- `rows[r][ci]` of an int matrix (list-of-lists, defaults never reached
on the 3×9 states the generator builds). -/
def cellAt (rows : List (List ℕ)) (r c : ℕ) : ℕ :=
  (rows.getD r []).getD c 0

/-- `rows[r][ci] = v`. -/
def setCell2 (rows : List (List ℕ)) (r ci v : ℕ) : List (List ℕ) :=
  rows.set r ((rows.getD r []).set ci v)

/-- `third_idx` from app.py. -/
def third_idx (ci : ℕ) : ℕ :=
  if ci ≤ 2 then 0 else if ci ≤ 5 then 1 else 2

/-- The mutable state of the mask-building phases: `rows`, `row_used`,
`coverage`. -/
structure MaskState where
  rows : List (List ℕ)
  rowUsed : List ℕ
  coverage : List (List ℕ)

/-- `rows = [[0]*9]*3`, `row_used = [0,0,0]`, `coverage = [[0,0,0]]*3`. -/
def appSt0 : MaskState :=
  ⟨List.replicate 3 (List.replicate 9 0), [0, 0, 0], List.replicate 3 [0, 0, 0]⟩

/-- One call's randomness oracle. -/
structure AppTicketRand where
  shufCols : List (List ℕ)
  opts2 : ℕ → List ℕ
  opts1 : ℕ → List ℕ
  choose : List ℕ → ℕ

/-- What `random` guarantees: shuffles permute, the sorted row orders
are permutations of `range(3)`, `random.choice` picks a member. -/
def WFApp (ar : AppTicketRand) : Prop :=
  ar.shufCols.length = 9 ∧
  (∀ c < 9, (ar.shufCols.getD c []).Perm (appColsInit.getD c [])) ∧
  (∀ ci, (ar.opts2 ci).Perm (List.range 3)) ∧
  (∀ ci, (ar.opts1 ci).Perm (List.range 3)) ∧
  ∀ l : List ℕ, l ≠ [] → ar.choose l ∈ l

/-- The 3s phase body for one column: set the whole column. -/
def place3At (st : MaskState) (ci : ℕ) : MaskState :=
  (List.range 3).foldl (fun st r =>
    { rows := setCell2 st.rows r ci 1,
      rowUsed := st.rowUsed.set r (st.rowUsed.getD r 0 + 1),
      coverage := setCell2 st.coverage r (third_idx ci) 1 }) st

/-- `# place 3s`. -/
def phase3 (counts : List ℕ) (st : MaskState) : MaskState :=
  (List.range 9).foldl (fun st ci =>
    if counts.getD ci 0 = 3 then place3At st ci else st) st

/-- One `for r in options` step of the 2s phase; `placed = 2` encodes the
`break`. -/
def place2Step (ci t : ℕ) (acc : MaskState × ℕ) (r : ℕ) : MaskState × ℕ :=
  if acc.2 = 2 then acc
  else if acc.1.rowUsed.getD r 0 < 5 then
    ({ rows := setCell2 acc.1.rows r ci 1,
       rowUsed := acc.1.rowUsed.set r (acc.1.rowUsed.getD r 0 + 1),
       coverage := setCell2 acc.1.coverage r t 1 }, acc.2 + 1)
  else acc

/-- One step of the `if placed < 2` fallback sweep of the 2s phase. -/
def place2Fallback (ci t : ℕ) (acc : MaskState × ℕ) (r : ℕ) : MaskState × ℕ :=
  if acc.2 = 2 then acc
  else if cellAt acc.1.rows r ci = 0 ∧ acc.1.rowUsed.getD r 0 < 5 then
    ({ rows := setCell2 acc.1.rows r ci 1,
       rowUsed := acc.1.rowUsed.set r (acc.1.rowUsed.getD r 0 + 1),
       coverage := setCell2 acc.1.coverage r t 1 }, acc.2 + 1)
  else acc

/-- The 2s-phase body for one column `ci` with `cnt == 2`. -/
def phase2col (ar : AppTicketRand) (st : MaskState) (ci : ℕ) : MaskState :=
  let t := third_idx ci
  let acc := (ar.opts2 ci).foldl (place2Step ci t) (st, 0)
  (if acc.2 < 2 then (List.range 3).foldl (place2Fallback ci t) acc else acc).1

/-- `# place 2s`. -/
def phase2 (ar : AppTicketRand) (counts : List ℕ) (st : MaskState) : MaskState :=
  (List.range 9).foldl (fun st ci =>
    if counts.getD ci 0 = 2 then phase2col ar st ci else st) st

/-- `chosen = None; for r in options: if row_used[r] < 5: chosen = r; break`. -/
def findChosen (st : MaskState) : List ℕ → Option ℕ
  | [] => none
  | r :: rest => if st.rowUsed.getD r 0 < 5 then some r else findChosen st rest

/-- `min(range(3), key=lambda r: row_used[r])`: first index with minimal
key, as Python's `min` ties. -/
def pyMinRowUsed (rowUsed : List ℕ) : ℕ :=
  let k0 := rowUsed.getD 0 0
  let k1 := rowUsed.getD 1 0
  let k2 := rowUsed.getD 2 0
  if k0 ≤ k1 then (if k0 ≤ k2 then 0 else 2) else (if k1 ≤ k2 then 1 else 2)

/-- The row the 1s phase writes for one column: the first on-capacity row
of the sorted options, else `random.choice` of the rows with capacity,
else the least-used row. -/
def chooseRow1 (ar : AppTicketRand) (st : MaskState) (ci : ℕ) : ℕ :=
  match findChosen st (ar.opts1 ci) with
  | some r => r
  | none =>
    let caps := (List.range 3).filter fun r => decide (st.rowUsed.getD r 0 < 5)
    if caps.isEmpty then pyMinRowUsed st.rowUsed else ar.choose caps

/-- The 1s-phase body for one column `ci` with `cnt == 1`. -/
def phase1col (ar : AppTicketRand) (st : MaskState) (ci : ℕ) : MaskState :=
  let chosen := chooseRow1 ar st ci
  { rows := setCell2 st.rows chosen ci 1,
    rowUsed := st.rowUsed.set chosen (st.rowUsed.getD chosen 0 + 1),
    coverage := setCell2 st.coverage chosen (third_idx ci) 1 }

/-- `# place 1s`. -/
def phase1 (ar : AppTicketRand) (counts : List ℕ) (st : MaskState) : MaskState :=
  (List.range 9).foldl (fun st ci =>
    if counts.getD ci 0 = 1 then phase1col ar st ci else st) st

/-- `max(range(3), key=lambda rr: row_used[rr])`: first index with
maximal key, as Python's `max` ties. -/
def pyMaxRowUsed (rowUsed : List ℕ) : ℕ :=
  let k0 := rowUsed.getD 0 0
  let k1 := rowUsed.getD 1 0
  let k2 := rowUsed.getD 2 0
  if k1 ≤ k0 then (if k2 ≤ k0 then 0 else 2) else (if k2 ≤ k1 then 1 else 2)

/-- The coverage recomputation at the end of each patch move. -/
def recompCoverage (rows : List (List ℕ)) : List (List ℕ) :=
  (List.range 3).map fun rr =>
    (List.range 9).foldl (fun cov cidx =>
      if cellAt rows rr cidx ≠ 0 then cov.set (third_idx cidx) 1 else cov) [0, 0, 0]

/-- `movable`: the columns a cell can move along from `donor` to `r`. -/
def movableOf (st : MaskState) (donor r : ℕ) : List ℕ :=
  (List.range 9).filter fun ci =>
    (cellAt st.rows donor ci == 1) && (cellAt st.rows r ci == 0)

/-- One move of the patch loop: `rows[donor][ci]=0; rows[r][ci]=1`, the
`row_used` bookkeeping, and the coverage recomputation. -/
def patchMove (r : ℕ) (st : MaskState) (ci : ℕ) : MaskState :=
  let donor := pyMaxRowUsed st.rowUsed
  let rows2 := setCell2 (setCell2 st.rows donor ci 0) r ci 1
  { rows := rows2,
    rowUsed := (st.rowUsed.set donor (st.rowUsed.getD donor 0 - 1)).set r
      (st.rowUsed.getD r 0 + 1),
    coverage := recompCoverage rows2 }

/-- The `while row_used[r] < 5` patch loop for one row, fuel-bounded
(each move raises `row_used[r]` by one, so 8 steps more than cover the
real loop); `donor = max(range(3), key=row_used)`, `ci =
random.choice(movable)`. -/
def patchLoop (ar : AppTicketRand) (r : ℕ) : ℕ → MaskState → MaskState
  | 0, st => st
  | fuel + 1, st =>
    if st.rowUsed.getD r 0 < 5 then
      if st.rowUsed.getD (pyMaxRowUsed st.rowUsed) 0 ≤ 5 then st
      else if (movableOf st (pyMaxRowUsed st.rowUsed) r).isEmpty then st
      else patchLoop ar r fuel
        (patchMove r st (ar.choose (movableOf st (pyMaxRowUsed st.rowUsed) r)))
    else st

/-- `# tiny patch: bring any row up to 5`. -/
def patchPhase (ar : AppTicketRand) (st : MaskState) : MaskState :=
  (List.range 3).foldl (fun st r => patchLoop ar r 8 st) st

/-- The finished 0/1 layout of one `generate_ticket_balanced` call. -/
def appMask (ar : AppTicketRand) : MaskState :=
  patchPhase ar (phase1 ar appCounts (phase2 ar appCounts (phase3 appCounts appSt0)))

/-- `# assign numbers ascending per column` for one column: the rows
holding the column's mask (already ascending as a filter of `range(3)`;
the source's `r_idxs.sort()` is a no-op), dealt the sorted numbers
popped off the end of the column's shuffled list. -/
def assignCol (shufCols : List (List ℕ)) (rows : List (List ℕ))
    (ticket : List (List ℕ)) (ci : ℕ) : List (List ℕ) :=
  let r_idxs := (List.range 3).filter fun r => cellAt rows r ci == 1
  let need := r_idxs.length
  let nums := pySorted ((shufCols.getD ci []).reverse.take need)
  (r_idxs.zip nums).foldl (fun tk p => setCell2 tk p.1 ci p.2) ticket

/-- The int matrix `ticket` the call returns. -/
def appTicketInt (ar : AppTicketRand) : List (List ℕ) :=
  (List.range 9).foldl (assignCol ar.shufCols (appMask ar).rows)
    (List.replicate 3 (List.replicate 9 0))

/-- The same ticket as `validate_strip` sees it: every int cell kept
(`0` stays an int cell, not `None` — validation reads it through
truthiness either way). -/
def appTicket (ar : AppTicketRand) : Ticket :=
  (appTicketInt ar).map fun row => row.map some

/-- app.py's `generate_full_strip`: `[generate_ticket_balanced() for _
in range(6)]`, each call drawing fresh randomness. -/
def appStrip (rand : ℕ → AppTicketRand) : Strip :=
  (List.range 6).map fun i => appTicket (rand i)

end Housie

namespace Housie

lemma getD_set_ne2 {α : Type} {l : List α} {i j : ℕ} (h : i ≠ j) (v d : α) :
    (l.set i v).getD j d = l.getD j d := by
  simp [List.getD_eq_getElem?_getD, List.getElem?_set_ne h]

lemma getD_set_self2 {α : Type} {l : List α} {i : ℕ} (h : i < l.length) (v d : α) :
    (l.set i v).getD i d = v := by
  simp [List.getD_eq_getElem?_getD, List.getElem?_set_self, h]

lemma getD_set_oob {α : Type} {l : List α} {i : ℕ} (h : l.length ≤ i) (v d : α) :
    (l.set i v).getD i d = l.getD i d := by
  rw [List.getD_eq_getElem?_getD, List.getD_eq_getElem?_getD,
    List.getElem?_eq_none (by rw [List.length_set]; omega), List.getElem?_eq_none h]

lemma cellAt_setCell2_col_ne (rows : List (List ℕ)) (r' ci v r c : ℕ) (h : ci ≠ c) :
    cellAt (setCell2 rows r' ci v) r c = cellAt rows r c := by
  rw [cellAt, cellAt, setCell2]
  rcases eq_or_ne r' r with rfl | hne
  · rcases Nat.lt_or_ge r' rows.length with hlt | hge
    · rw [getD_set_self2 hlt, getD_set_ne2 h]
    · rw [getD_set_oob hge]
  · rw [getD_set_ne2 hne]

lemma cellAt_setCell2_row_ne (rows : List (List ℕ)) (r' ci v r c : ℕ) (h : r' ≠ r) :
    cellAt (setCell2 rows r' ci v) r c = cellAt rows r c := by
  rw [cellAt, cellAt, setCell2, getD_set_ne2 h]

lemma cellAt_setCell2_self {rows : List (List ℕ)} {r ci : ℕ} (v : ℕ)
    (hr : r < rows.length) (hc : ci < (rows.getD r []).length) :
    cellAt (setCell2 rows r ci v) r ci = v := by
  rw [cellAt, setCell2, getD_set_self2 hr, getD_set_self2 hc]

/-- The 3×9 shape of the generator's matrices. -/
def ShapeOK (rows : List (List ℕ)) : Prop :=
  rows.length = 3 ∧ ∀ r < 3, (rows.getD r []).length = 9

lemma shape_setCell2 {rows : List (List ℕ)} (h : ShapeOK rows) (r' ci v : ℕ) :
    ShapeOK (setCell2 rows r' ci v) := by
  obtain ⟨h3, h9⟩ := h
  refine ⟨by rw [setCell2, List.length_set]; exact h3, ?_⟩
  intro r hr
  rw [setCell2]
  rcases eq_or_ne r' r with rfl | hne
  · rcases Nat.lt_or_ge r' rows.length with hlt | hge
    · rw [getD_set_self2 hlt, List.length_set]
      exact h9 _ hr
    · rw [getD_set_oob hge]
      exact h9 _ hr
  · rw [getD_set_ne2 hne]
    exact h9 _ hr

/-- Column 0 of the mask is still all-zero. -/
def Col0Zero (rows : List (List ℕ)) : Prop := ∀ r < 3, cellAt rows r 0 = 0

/-- Column 0 of the mask holds exactly one 1. -/
def Col0Single (rows : List (List ℕ)) : Prop :=
  ∃ r₀ < 3, ∀ r < 3, cellAt rows r 0 = if r = r₀ then 1 else 0

def Inv0 (st : MaskState) : Prop := ShapeOK st.rows ∧ Col0Zero st.rows

def Inv1 (st : MaskState) : Prop := ShapeOK st.rows ∧ Col0Single st.rows

lemma foldl_preserve_mem {α β : Type} (P : β → Prop) (f : β → α → β) :
    ∀ (l : List α), (∀ b, ∀ a ∈ l, P b → P (f b a)) → ∀ b, P b → P (l.foldl f b) := by
  intro l
  induction l with
  | nil => exact fun _ b hb => hb
  | cons a l' ih =>
    intro hf b hb
    rw [List.foldl_cons]
    exact ih (fun b' a' ha' hb' => hf b' a' (List.mem_cons_of_mem a ha') hb') (f b a)
      (hf b a (List.mem_cons_self a l') hb)

lemma place2Step_preserve {ci : ℕ} (t : ℕ) (hci : ci ≠ 0) (acc : MaskState × ℕ) (r : ℕ)
    (h : Inv0 acc.1) : Inv0 (place2Step ci t acc r).1 := by
  obtain ⟨hs, hz⟩ := h
  rw [place2Step]
  split_ifs with h1 h2
  · exact ⟨hs, hz⟩
  · exact ⟨shape_setCell2 hs r ci 1,
      fun r' hr' => (cellAt_setCell2_col_ne _ r ci 1 r' 0 hci).trans (hz r' hr')⟩
  · exact ⟨hs, hz⟩

lemma place2Fallback_preserve {ci : ℕ} (t : ℕ) (hci : ci ≠ 0) (acc : MaskState × ℕ) (r : ℕ)
    (h : Inv0 acc.1) : Inv0 (place2Fallback ci t acc r).1 := by
  obtain ⟨hs, hz⟩ := h
  rw [place2Fallback]
  split_ifs with h1 h2
  · exact ⟨hs, hz⟩
  · exact ⟨shape_setCell2 hs r ci 1,
      fun r' hr' => (cellAt_setCell2_col_ne _ r ci 1 r' 0 hci).trans (hz r' hr')⟩
  · exact ⟨hs, hz⟩

lemma phase2col_preserve (ar : AppTicketRand) {ci : ℕ} (hci : ci ≠ 0) (st : MaskState)
    (h : Inv0 st) : Inv0 (phase2col ar st ci) := by
  rw [phase2col]
  have h1 : Inv0 ((ar.opts2 ci).foldl (place2Step ci (third_idx ci)) (st, 0)).1 :=
    foldl_preserve_mem (fun acc => Inv0 acc.1) _ (ar.opts2 ci)
      (fun b a _ hb => place2Step_preserve (third_idx ci) hci b a hb) (st, 0) h
  split_ifs with hlt
  · exact foldl_preserve_mem (fun acc => Inv0 acc.1) _ (List.range 3)
      (fun b a _ hb => place2Fallback_preserve (third_idx ci) hci b a hb) _ h1
  · exact h1

lemma phase2_preserve (ar : AppTicketRand) (st : MaskState) (h : Inv0 st) :
    Inv0 (phase2 ar appCounts st) := by
  rw [phase2]
  refine foldl_preserve_mem Inv0 _ (List.range 9) ?_ st h
  intro b a _ hb
  rcases eq_or_ne a 0 with rfl | ha0
  · rw [if_neg (by decide)]
    exact hb
  · split_ifs with hc
    · exact phase2col_preserve ar ha0 b hb
    · exact hb

end Housie

namespace Housie

lemma findChosen_mem (st : MaskState) :
    ∀ (l : List ℕ) (r : ℕ), findChosen st l = some r → r ∈ l := by
  intro l
  induction l with
  | nil => intro r h; cases h
  | cons a l' ih =>
    intro r h
    rw [findChosen] at h
    split_ifs at h with hlt
    · injection h with h'
      exact h' ▸ List.mem_cons_self a l'
    · exact List.mem_cons_of_mem a (ih r h)

lemma pyMinRowUsed_lt (ru : List ℕ) : pyMinRowUsed ru < 3 := by
  rw [pyMinRowUsed]
  split_ifs <;> omega

lemma pyMaxRowUsed_lt (ru : List ℕ) : pyMaxRowUsed ru < 3 := by
  rw [pyMaxRowUsed]
  split_ifs <;> omega

lemma chooseRow1_lt (ar : AppTicketRand) (hwf : WFApp ar) (st : MaskState) (ci : ℕ) :
    chooseRow1 ar st ci < 3 := by
  rw [chooseRow1]
  split
  · rename_i r hf
    exact List.mem_range.mp ((hwf.2.2.2.1 ci).mem_iff.mp (findChosen_mem st _ r hf))
  · show (if ((List.range 3).filter fun r => decide (st.rowUsed.getD r 0 < 5)).isEmpty
        then pyMinRowUsed st.rowUsed
        else ar.choose ((List.range 3).filter fun r => decide (st.rowUsed.getD r 0 < 5))) < 3
    split_ifs with hcaps
    · exact pyMinRowUsed_lt _
    · have hne : ((List.range 3).filter fun r => decide (st.rowUsed.getD r 0 < 5)) ≠ [] := by
        intro h
        rw [h] at hcaps
        exact hcaps rfl
      have hmem := hwf.2.2.2.2 _ hne
      exact List.mem_range.mp (List.mem_filter.mp hmem).1

lemma phase1col_creates (ar : AppTicketRand) (hwf : WFApp ar) (st : MaskState)
    (h : Inv0 st) : Inv1 (phase1col ar st 0) := by
  obtain ⟨hs, hz⟩ := h
  have hch := chooseRow1_lt ar hwf st 0
  refine ⟨shape_setCell2 hs _ 0 1, chooseRow1 ar st 0, hch, ?_⟩
  intro r hr
  rcases eq_or_ne r (chooseRow1 ar st 0) with rfl | hne
  · rw [if_pos rfl]
    show cellAt (setCell2 st.rows (chooseRow1 ar st 0) 0 1) (chooseRow1 ar st 0) 0 = 1
    exact cellAt_setCell2_self 1 (by rw [hs.1]; exact hch)
      (by rw [hs.2 (chooseRow1 ar st 0) hr]; omega)
  · rw [if_neg hne]
    show cellAt (setCell2 st.rows (chooseRow1 ar st 0) 0 1) r 0 = 0
    exact (cellAt_setCell2_row_ne _ _ 0 1 r 0 (Ne.symm hne)).trans (hz r hr)

lemma phase1col_preserve (ar : AppTicketRand) {ci : ℕ} (hci : ci ≠ 0) (st : MaskState)
    (h : Inv1 st) : Inv1 (phase1col ar st ci) := by
  obtain ⟨hs, r₀, hr₀, hpat⟩ := h
  exact ⟨shape_setCell2 hs _ ci 1, r₀, hr₀,
    fun r hr => (cellAt_setCell2_col_ne _ _ ci 1 r 0 hci).trans (hpat r hr)⟩

lemma phase1_inv (ar : AppTicketRand) (hwf : WFApp ar) (st : MaskState) (h : Inv0 st) :
    Inv1 (phase1 ar appCounts st) := by
  rw [phase1, show List.range 9 = 0 :: [1, 2, 3, 4, 5, 6, 7, 8] from rfl, List.foldl_cons]
  rw [if_pos (by decide)]
  refine foldl_preserve_mem Inv1 _ [1, 2, 3, 4, 5, 6, 7, 8] ?_ _
    (phase1col_creates ar hwf st h)
  intro b a ha hb
  have ha0 : a ≠ 0 := by
    intro h'
    have h08 : (0 : ℕ) ∉ [1, 2, 3, 4, 5, 6, 7, 8] := by decide
    exact h08 (h' ▸ ha)
  split_ifs with hc
  · exact phase1col_preserve ar ha0 b hb
  · exact hb

end Housie

namespace Housie

lemma patchMove_preserve {r : ℕ} (hr : r < 3) (st : MaskState) {ci : ℕ}
    (hci : ci ∈ movableOf st (pyMaxRowUsed st.rowUsed) r) (h : Inv1 st) :
    Inv1 (patchMove r st ci) := by
  obtain ⟨hs, r₀, hr₀, hpat⟩ := h
  obtain ⟨hci9, hpred⟩ := List.mem_filter.mp hci
  rw [Bool.and_eq_true, beq_iff_eq, beq_iff_eq] at hpred
  obtain ⟨hdon1, hr0'⟩ := hpred
  have hd3 : pyMaxRowUsed st.rowUsed < 3 := pyMaxRowUsed_lt _
  refine ⟨shape_setCell2 (shape_setCell2 hs _ ci 0) r ci 1, ?_⟩
  by_cases hci0 : ci = 0
  · subst hci0
    have hdo : pyMaxRowUsed st.rowUsed = r₀ := by
      have hx := hpat _ hd3
      rw [hdon1] at hx
      by_contra hne
      rw [if_neg hne] at hx
      omega
    have hrne : r ≠ r₀ := by
      intro hEq
      have hx := hpat r hr
      rw [hr0', if_pos hEq] at hx
      omega
    refine ⟨r, hr, ?_⟩
    intro r' hr'
    show cellAt (setCell2 (setCell2 st.rows (pyMaxRowUsed st.rowUsed) 0 0) r 0 1) r' 0
      = if r' = r then 1 else 0
    rcases eq_or_ne r' r with rfl | hner
    · rw [if_pos rfl]
      exact cellAt_setCell2_self 1
        (by rw [(shape_setCell2 hs (pyMaxRowUsed st.rowUsed) 0 0).1]; exact hr)
        (by rw [(shape_setCell2 hs (pyMaxRowUsed st.rowUsed) 0 0).2 r' hr']; omega)
    · rw [if_neg hner]
      rw [cellAt_setCell2_row_ne _ _ 0 1 r' 0 (Ne.symm hner)]
      rcases eq_or_ne r' (pyMaxRowUsed st.rowUsed) with rfl | hned
      · exact cellAt_setCell2_self 0 (by rw [hs.1]; exact hr')
          (by rw [hs.2 (pyMaxRowUsed st.rowUsed) hr']; omega)
      · rw [cellAt_setCell2_row_ne _ _ 0 0 r' 0 (Ne.symm hned)]
        have hx := hpat r' hr'
        rw [if_neg (hdo ▸ hned)] at hx
        exact hx
  · refine ⟨r₀, hr₀, ?_⟩
    intro r' hr'
    show cellAt (setCell2 (setCell2 st.rows (pyMaxRowUsed st.rowUsed) ci 0) r ci 1) r' 0
      = if r' = r₀ then 1 else 0
    rw [cellAt_setCell2_col_ne _ r ci 1 r' 0 hci0,
      cellAt_setCell2_col_ne _ _ ci 0 r' 0 hci0]
    exact hpat r' hr'

lemma patchLoop_preserve (ar : AppTicketRand) (hwf : WFApp ar) {r : ℕ} (hr : r < 3) :
    ∀ (fuel : ℕ) (st : MaskState), Inv1 st → Inv1 (patchLoop ar r fuel st) := by
  intro fuel
  induction fuel with
  | zero => exact fun _ h => h
  | succ fuel ih =>
    intro st h
    rw [patchLoop]
    split_ifs with h1 h2 h3
    · exact h
    · exact h
    · refine ih _ ?_
      have hne : movableOf st (pyMaxRowUsed st.rowUsed) r ≠ [] := by
        intro heq
        rw [heq] at h3
        exact h3 rfl
      exact patchMove_preserve hr st (hwf.2.2.2.2 _ hne) h
    · exact h

lemma patchPhase_preserve (ar : AppTicketRand) (hwf : WFApp ar) (st : MaskState)
    (h : Inv1 st) : Inv1 (patchPhase ar st) := by
  rw [patchPhase]
  refine foldl_preserve_mem Inv1 _ (List.range 3) ?_ st h
  intro b a ha hb
  exact patchLoop_preserve ar hwf (List.mem_range.mp ha) 8 b hb

lemma appMask_inv (ar : AppTicketRand) (hwf : WFApp ar) : Inv1 (appMask ar) := by
  rw [appMask]
  have h0 : Inv0 (phase3 appCounts appSt0) :=
    ⟨⟨by rfl, by decide⟩, by intro r hr; interval_cases r <;> rfl⟩
  exact patchPhase_preserve ar hwf _ (phase1_inv ar hwf _ (phase2_preserve ar _ h0))

end Housie

namespace Housie

lemma assignCol_shape (sc rows : List (List ℕ)) (tk : List (List ℕ)) (ci : ℕ)
    (h : ShapeOK tk) : ShapeOK (assignCol sc rows tk ci) := by
  rw [assignCol]
  refine foldl_preserve_mem ShapeOK _ _ ?_ tk h
  intro b a _ hb
  exact shape_setCell2 hb a.1 ci a.2

lemma assignCol_col0 (sc rows : List (List ℕ)) (tk : List (List ℕ)) {ci : ℕ}
    (hci : ci ≠ 0) (r : ℕ) :
    cellAt (assignCol sc rows tk ci) r 0 = cellAt tk r 0 := by
  rw [assignCol]
  refine foldl_preserve_mem (fun tk' => cellAt tk' r 0 = cellAt tk r 0) _ _ ?_ tk rfl
  intro b a _ hb
  rw [cellAt_setCell2_col_ne _ a.1 ci a.2 r 0 hci]
  exact hb

lemma assignCol0_spec (ar : AppTicketRand) (hwf : WFApp ar) {r₀ : ℕ} (hr₀ : r₀ < 3)
    (hpat : ∀ r < 3, cellAt (appMask ar).rows r 0 = if r = r₀ then 1 else 0) :
    ∃ v, 1 ≤ v ∧ ∀ r < 3,
      cellAt (assignCol ar.shufCols (appMask ar).rows
        (List.replicate 3 (List.replicate 9 0)) 0) r 0 = if r = r₀ then v else 0 := by
  have e0 := hpat 0 (by omega)
  have e1 := hpat 1 (by omega)
  have e2 := hpat 2 (by omega)
  have hidx : ((List.range 3).filter fun r => cellAt (appMask ar).rows r 0 == 1) = [r₀] := by
    rw [show List.range 3 = [0, 1, 2] from rfl]
    interval_cases r₀ <;>
      simp_all [List.filter_cons, List.filter_nil]
  have hlen9 : (ar.shufCols.getD 0 []).length = 9 := by
    rw [(hwf.2.1 0 (by omega)).length_eq]
    rfl
  obtain ⟨v, rest, hvr⟩ : ∃ v rest, (ar.shufCols.getD 0 []).reverse = v :: rest := by
    cases hrev : (ar.shufCols.getD 0 []).reverse with
    | nil =>
      exfalso
      have := List.length_reverse (ar.shufCols.getD 0 [])
      rw [hrev, hlen9] at this
      cases this
    | cons v rest => exact ⟨v, rest, rfl⟩
  have hvmem : v ∈ ar.shufCols.getD 0 [] := by
    rw [← List.mem_reverse, hvr]
    exact List.mem_cons_self v rest
  have hv1 : 1 ≤ v := by
    have hm := (hwf.2.1 0 (by omega)).mem_iff.mp hvmem
    have : v ∈ List.range' 1 9 := hm
    rw [List.mem_range'_1] at this
    omega
  refine ⟨v, hv1, ?_⟩
  intro r hr
  rw [assignCol]
  simp only [hidx]
  rw [hvr]
  show cellAt (([(r₀, v)]).foldl (fun tk p => setCell2 tk p.1 0 p.2)
    (List.replicate 3 (List.replicate 9 0))) r 0 = if r = r₀ then v else 0
  rw [List.foldl_cons, List.foldl_nil]
  rcases eq_or_ne r r₀ with rfl | hne
  · rw [if_pos rfl]
    exact cellAt_setCell2_self v (by rw [List.length_replicate]; exact hr) (by
      rw [getD_eq_getElem' (by rw [List.length_replicate]; exact hr) [],
        List.getElem_replicate, List.length_replicate]
      omega)
  · rw [if_neg hne]
    rw [cellAt_setCell2_row_ne _ _ 0 v r 0 (Ne.symm hne)]
    interval_cases r <;> rfl

lemma appTicketInt_col0 (ar : AppTicketRand) (hwf : WFApp ar) :
    ∃ v, 1 ≤ v ∧ ∃ r₀ < 3, ∀ r < 3,
      cellAt (appTicketInt ar) r 0 = if r = r₀ then v else 0 := by
  obtain ⟨hs, r₀, hr₀, hpat⟩ := appMask_inv ar hwf
  obtain ⟨v, hv, hcol⟩ := assignCol0_spec ar hwf hr₀ hpat
  refine ⟨v, hv, r₀, hr₀, ?_⟩
  intro r hr
  rw [appTicketInt, show List.range 9 = 0 :: [1, 2, 3, 4, 5, 6, 7, 8] from rfl,
    List.foldl_cons]
  refine foldl_preserve_mem (fun tk => cellAt tk r 0 = if r = r₀ then v else 0) _
    [1, 2, 3, 4, 5, 6, 7, 8] ?_ _ (hcol r hr)
  intro b a ha hb
  have ha0 : a ≠ 0 := by
    intro h'
    have h08 : (0 : ℕ) ∉ [1, 2, 3, 4, 5, 6, 7, 8] := by decide
    exact h08 (h' ▸ ha)
  rw [assignCol_col0 _ _ _ ha0 r]
  exact hb

lemma appTicketInt_shape (ar : AppTicketRand) : ShapeOK (appTicketInt ar) := by
  rw [appTicketInt]
  refine foldl_preserve_mem ShapeOK _ (List.range 9) ?_ _ (by exact ⟨rfl, by decide⟩)
  intro b a _ hb
  exact assignCol_shape _ _ b a hb

lemma appTicket_col0_len (ar : AppTicketRand) (hwf : WFApp ar) :
    (colVals (appTicket ar) 0).length = 1 := by
  obtain ⟨v, hv, r₀, hr₀, hcells⟩ := appTicketInt_col0 ar hwf
  have hshape := appTicketInt_shape ar
  have hget : ∀ r < 3, getCell (appTicket ar) r 0 = some (if r = r₀ then v else 0) := by
    intro r hr
    have h3 : r < (appTicketInt ar).length := by rw [hshape.1]; exact hr
    have h9 : 0 < ((appTicketInt ar).getD r []).length := by rw [hshape.2 r hr]; omega
    rw [getCell, appTicket,
      getD_eq_getElem' (by rw [List.length_map]; exact h3) [], List.getElem_map,
      getD_eq_getElem' (by
        rw [List.length_map, ← getD_eq_getElem' h3 []]
        exact h9) none,
      List.getElem_map]
    have hc := hcells r hr
    rw [cellAt, getD_eq_getElem' h3 []] at hc
    rw [getD_eq_getElem (by rw [← getD_eq_getElem' h3 []]; exact h9)] at hc
    rw [hc]
  have hvne : v ≠ 0 := by omega
  have h0 := hget 0 (by omega)
  have h1 := hget 1 (by omega)
  have h2 := hget 2 (by omega)
  rw [colVals, show List.range 3 = [0, 1, 2] from rfl]
  interval_cases r₀ <;>
    simp_all [List.filterMap_cons, List.filterMap_nil]

end Housie

namespace Housie

lemma sum_map_const_one {α : Type} (f : α → ℕ) :
    ∀ (l : List α), (∀ a ∈ l, f a = 1) → (l.map f).sum = l.length := by
  intro l
  induction l with
  | nil => intro _; rfl
  | cons a t ih =>
    intro h
    rw [List.map_cons, List.sum_cons, h a (List.mem_cons_self a t),
      ih fun b hb => h b (List.mem_cons_of_mem a hb), List.length_cons]
    omega

/-- C9. The `counts` vector of app.py's `generate_ticket_balanced` is
always `[1,2,2,2,2,2,2,1,1]` (no randomness reaches its computation), so
every ticket places exactly one value in column 0, every strip of
app.py's `generate_full_strip` has a column-0 total of 6 instead of the
quota 9, and `validate_strip` reports fail on every such strip. -/
theorem claim_C9 {rand : ℕ → AppTicketRand} (hwf : ∀ i, WFApp (rand i)) :
    appCounts = [1, 2, 2, 2, 2, 2, 2, 1, 1] ∧
    colTotal (appStrip rand) 0 = 6 ∧
    (validate_strip (appStrip rand)).1 = false := by
  have hct : colTotal (appStrip rand) 0 = 6 := by
    have hall : ∀ t ∈ appStrip rand, (colVals t 0).length = 1 := by
      intro t ht
      obtain ⟨i, -, rfl⟩ := List.mem_map.mp ht
      exact appTicket_col0_len (rand i) (hwf i)
    rw [colTotal, sum_map_const_one _ _ hall, appStrip, List.length_map,
      List.length_range]
  refine ⟨by decide, hct, ?_⟩
  rcases validate_cases (appStrip rand) with hok | hf
  · exfalso
    have h9 := ((validate_ok_iff _).mp hok).2.2.2.2 0 (by omega)
    rw [hct] at h9
    exact absurd h9 (by decide)
  · exact hf

/-- A concrete well-formed oracle: unshuffled columns, identity row
orders, `choice` taking the head. -/
def demoAppRand : AppTicketRand :=
  ⟨appColsInit, fun _ => [0, 1, 2], fun _ => [0, 1, 2], fun l => l.headD 0⟩

lemma demoAppRand_wf : WFApp demoAppRand := by
  refine ⟨rfl, fun c _ => List.Perm.refl _, fun _ => List.Perm.refl _,
    fun _ => List.Perm.refl _, ?_⟩
  intro l hl
  cases l with
  | nil => exact absurd rfl hl
  | cons a t => exact List.mem_cons_self a t

/-- C9, witness: the strip app.py serves under the concrete oracle. -/
theorem claim_C9_witness :
    (∀ i : ℕ, WFApp ((fun _ => demoAppRand) i)) ∧
    (appCounts = [1, 2, 2, 2, 2, 2, 2, 1, 1] ∧
      colTotal (appStrip fun _ => demoAppRand) 0 = 6 ∧
      (validate_strip (appStrip fun _ => demoAppRand)).1 = false) :=
  ⟨fun _ => demoAppRand_wf, claim_C9 fun _ => demoAppRand_wf⟩

end Housie
